import Mathlib

/-!
# Verification of the bustub storage / concurrency core

Shallow embedding, translated from the C++ sources, of:

* the lock manager (`src/concurrency/lock_manager.cpp`,
  `src/include/concurrency/lock_manager.h`): grant predicate,
  isolation-level gates of `LockShared` / `LockExclusive`, `Unlock`,
  and the waits-for-graph cycle detector (`HasCycle` / `DFSCheckCycle`);
* the buffer pool manager (`src/buffer/buffer_pool_manager.cpp`) and the
  LRU replacer (`src/buffer/lru_replacer.cpp`);
* the B+ tree (`src/storage/index/b_plus_tree.cpp`,
  `src/storage/page/b_plus_tree_leaf_page.cpp`,
  `src/storage/page/b_plus_tree_internal_page.cpp`).

Keys, record ids and page contents are modelled as `Nat`.  B+ tree pages
are modelled with an explicit backing array (a list of fixed capacity)
plus a separate `size` field, mirroring the C++ `array` / `size_` layout:
slots at indices `≥ size` keep their previous ("stale") contents exactly
as the C++ `std::move` based shifting leaves them, because the leaf
`Insert` routine reads `array[id]` without first checking `id < size_`.
-/

namespace Bustub

/-! ## Lock manager data model (`lock_manager.h`) -/

/-- Models `LockManager::LockMode`. -/
inductive LockMode where
  | SHARED
  | EXCLUSIVE
deriving DecidableEq, Repr

/-- Models `IsolationLevel` (carried by the transaction; the enum itself lives in
`concurrency/transaction.h`, outside the given sources, with the three
levels named throughout the spec and `lock_manager.cpp`). -/
inductive IsolationLevel where
  | READ_UNCOMMITTED
  | READ_COMMITTED
  | REPEATABLE_READ
deriving DecidableEq, Repr

/-- Models `TransactionState` (GROWING / SHRINKING / COMMITTED / ABORTED). -/
inductive TransactionState where
  | GROWING
  | SHRINKING
  | COMMITTED
  | ABORTED
deriving DecidableEq, Repr

/-- Models `AbortReason`: the stable enumeration of transaction abort reasons. -/
inductive AbortReason where
  | LOCK_ON_SHRINKING
  | LOCKSHARED_ON_READ_UNCOMMITTED
  | UPGRADE_CONFLICT
  | DEADLOCK
deriving DecidableEq, Repr

/-- Models `LockManager::LockRequest`: {txn id, mode, granted flag}. -/
structure LockRequest where
  txn_id : Nat
  lock_mode : LockMode
  granted : Bool
deriving DecidableEq, Repr

/-- The transaction state the lock manager reads and writes: id,
isolation level, 2PL state, and the two lock sets (rids, as `Nat`). -/
structure Txn where
  id : Nat
  iso : IsolationLevel
  state : TransactionState
  sharedSet : List Nat
  exclusiveSet : List Nat
deriving DecidableEq, Repr

/-- Models `LockManager::CanGrantLock` (`lock_manager.h`, lines 143-165): true
when the head request of the queue belongs to `txn_id`, or when the mode
is SHARED and no request in the queue is EXCLUSIVE.  The C++ reads
`request_queue_.front()` without an emptiness check (callers have just
pushed a request); the empty case is mapped to `false`. -/
def CanGrantLock (queue : List LockRequest) (mode : LockMode) (txn_id : Nat) : Bool :=
  match queue with
  | [] => false
  | front :: _ =>
    if front.txn_id = txn_id then
      true
    else if mode = LockMode.SHARED then
      queue.all (fun req => req.lock_mode ≠ LockMode.EXCLUSIVE)
    else
      false

/-- Outcome of the non-blocking prefix of `LockShared` / `LockExclusive`:
either the isolation-level gate aborts the transaction, or the call
returns `true` immediately without touching the queue (the idempotent
path), or a fresh request is appended to the queue and the caller then
waits on the condition variable. -/
inductive LockOutcome where
  | aborted (reason : AbortReason)
  | grantedImmediately
  | enqueued (req : LockRequest)
deriving DecidableEq, Repr

/-- Prefix of `LockManager::LockShared` (`lock_manager.cpp`, lines
28-66): the isolation-level gates, then the recursive-lock check, then
the append of a `SHARED` request to the queue. -/
def lockSharedStep (txn : Txn) (rid : Nat) : LockOutcome :=
  if txn.iso = IsolationLevel.READ_UNCOMMITTED then
    .aborted .LOCKSHARED_ON_READ_UNCOMMITTED
  else if txn.iso = IsolationLevel.REPEATABLE_READ ∧
      txn.state = TransactionState.SHRINKING then
    .aborted .LOCK_ON_SHRINKING
  else if rid ∈ txn.sharedSet ∨ rid ∈ txn.exclusiveSet then
    .grantedImmediately
  else
    .enqueued ⟨txn.id, LockMode.SHARED, false⟩

/-- Prefix of `LockManager::LockExclusive` (`lock_manager.cpp`, lines
86-107): the SHRINKING gate (checked for every isolation level), then
the recursive-lock check, then the append of an `EXCLUSIVE` request. -/
def lockExclusiveStep (txn : Txn) (rid : Nat) : LockOutcome :=
  if txn.state = TransactionState.SHRINKING then
    .aborted .LOCK_ON_SHRINKING
  else if rid ∈ txn.exclusiveSet then
    .grantedImmediately
  else
    .enqueued ⟨txn.id, LockMode.EXCLUSIVE, false⟩

/-- Models `LockManager::Unlock` (`lock_manager.cpp`, lines 169-211).  Returns
`none` when the `assert(iter != request_queue_.end())` would fire (the
transaction has no request in the queue); otherwise returns the result
`true` together with the updated transaction and queue.  The erased
request is the first one in the queue carrying the transaction's id,
matching `std::find_if` from the queue front. -/
def unlock (txn : Txn) (rid : Nat) (queue : List LockRequest) :
    Option (Bool × Txn × List LockRequest) :=
  let txn1 :=
    if txn.iso = IsolationLevel.REPEATABLE_READ ∧
        txn.state = TransactionState.GROWING then
      { txn with state := TransactionState.SHRINKING }
    else txn
  if (queue.find? (fun req => req.txn_id == txn.id)).isSome then
    let queue1 := queue.eraseP (fun req => req.txn_id == txn.id)
    let txn2 := { txn1 with
      sharedSet := txn1.sharedSet.erase rid,
      exclusiveSet := txn1.exclusiveSet.erase rid }
    some (true, txn2, queue1)
  else
    none

/-! ## Waits-for graph and cycle detection (`lock_manager.cpp`, 246-283)

`waits_for_` is a `std::map<txn_id_t, std::set<txn_id_t>>`; both the map
and each adjacency set iterate in ascending id order.  It is modelled as
an association list with ascending keys and ascending adjacency lists.
`visited` is the current DFS path (inserted before the recursive call,
erased after it); `muilt_graph_visited` accumulates every node ever
visited.  On a back edge the reported victim is
`*std::prev(visited.end())`, i.e. the largest id in `visited`. -/

/-- Adjacency of a vertex: `waits_for_[v]`, the empty set when `v` is
not a key (C++ `operator[]` default-constructs an empty set). -/
def adjOf (g : List (Nat × List Nat)) (v : Nat) : List Nat :=
  match g.find? (fun p => p.fst == v) with
  | some p => p.snd
  | none => []

/-- Largest element of a `std::set` modelled as a list
(`*std::prev(s.end())`); 0 on the empty set (never read there). -/
def listMax (l : List Nat) : Nat := l.foldr Nat.max 0

/-- Models `LockManager::DFSCheckCycle`, processing the remaining adjacency
list `adj` of the current vertex (the body of the
`for (auto to_txn_id : waits_for_[txn_id])` loop).  Descending into a
target `tgt` continues with `adjOf g tgt`.  Returns the found victim id
(if a back edge was hit) and the updated `muilt_graph_visited`;
`visited` is the current DFS path — it is extended before descending
and restored (the C++ `visited.erase(to_txn_id)`) when the descent
returns without a cycle.  `fuel` only guards termination: exactly one
unit is spent per recursive call, so `fuel` bounds the length of a
chain of nested calls, and with the always-sufficient bound `dfsFuel`
below the model returns exactly what the unbounded C++ recursion
returns on every input. -/
def dfsGo (g : List (Nat × List Nat)) :
    Nat → List Nat → List Nat → List Nat → Option Nat × List Nat
  | 0, _, _, mgv => (none, mgv)
  | fuel + 1, adj, visited, mgv =>
    match adj with
    | [] => (none, mgv)
    | tgt :: rest =>
      if tgt ∈ visited then
        (some (listMax visited), mgv)
      else
        match dfsGo g fuel (adjOf g tgt) (tgt :: visited) (tgt :: mgv) with
        | (some f, mgv') => (some f, mgv')
        | (none, mgv') => dfsGo g fuel rest visited mgv'

/-- Sum of `1 + out-degree` over the map entries whose key is not in
`vis`; with `vis` the current DFS path this bounds the work still ahead
of the search, and `restSum g []` is the total `Σ (1 + deg)` of the
graph. -/
def restSum (g : List (Nat × List Nat)) (vis : List Nat) : Nat :=
  g.foldr
    (fun p acc => acc + (if p.fst ∈ vis then 0 else 1 + p.snd.length)) 0

/-- Fuel bound used when running the DFS.  Along any chain of nested
`dfsGo` calls each step either moves to the next sibling (shortening
the adjacency suffix) or descends into a vertex not yet on the path
(consuming that vertex's `1 + deg` budget), so every chain is shorter
than `2 * Σ (1 + deg)` and this fuel is sufficient on every input: the
model computes exactly what the unbounded C++ recursion computes (made
precise by `dfsNeed_descend`, `dfs_finds` below). -/
def dfsFuel (g : List (Nat × List Nat)) : Nat :=
  2 * restSum g [] + 2

/-- Fuel needed by a DFS call processing the adjacency suffix `adj`
with current path `vis`; it shrinks by at least one along every
recursive call of `dfsGo`, so any fuel exceeding it never runs out. -/
def dfsNeed (g : List (Nat × List Nat)) (vis adj : List Nat) : Nat :=
  adj.length + restSum g vis

/-- The loop of `LockManager::HasCycle` over the map keys in ascending
order, skipping starts already in `muilt_graph_visited`. -/
def hasCycleGo (g : List (Nat × List Nat)) :
    List (Nat × List Nat) → List Nat → Option Nat
  | [], _ => none
  | (s, _) :: rest, mgv =>
    if s ∈ mgv then
      hasCycleGo g rest mgv
    else
      match dfsGo g (dfsFuel g) (adjOf g s) [] mgv with
      | (some f, _) => some f
      | (none, mgv') => hasCycleGo g rest mgv'

/-- Models `LockManager::HasCycle`: `some victim` when a cycle is found (the
out-parameter `txn_id`), `none` otherwise. -/
def hasCycle (g : List (Nat × List Nat)) : Option Nat :=
  hasCycleGo g g []

/-! Claim-side notion of "being on a cycle", used to compare the
detector's report with the spec's words: `v` lies on a cycle exactly
when `v` is reachable from one of its own successors. -/

/-- One round of breadth-first expansion of a reachable set. -/
def reachExpand (g : List (Nat × List Nat)) (s : List Nat) : List Nat :=
  (s ++ s.flatMap (adjOf g)).dedup

/-- Vertices reachable from `froms` (inclusive) in at most `fuel` steps;
`fuel` at least the number of vertices saturates. -/
def reachableFrom (g : List (Nat × List Nat)) (fuel : Nat)
    (froms : List Nat) : List Nat :=
  match fuel with
  | 0 => froms
  | fuel + 1 => reachableFrom g fuel (reachExpand g froms)

/-- Claim-side predicate: `v` lies on some cycle of the waits-for graph: it can be reached
back from one of its successors. -/
def onCycle (g : List (Nat × List Nat)) (v : Nat) : Bool :=
  v ∈ reachableFrom g (restSum g [] + 2) (adjOf g v)

/-- Claim-side path predicate: a nonempty directed path in the
waits-for graph from `a` to `b`.  A cycle through `c` is `Walk g c c`. -/
inductive Walk (g : List (Nat × List Nat)) : Nat → Nat → Prop
  | base {a b : Nat} : b ∈ adjOf g a → Walk g a b
  | step {a b c : Nat} : b ∈ adjOf g a → Walk g b c → Walk g a c

/-- Claim-side predicate: the DFS sitting at `t` with current path
`vis` has a back edge somewhere ahead of it — some nonempty path from
`t` ends in `t :: vis`. -/
def Findable (g : List (Nat × List Nat)) (vis : List Nat) (t : Nat) :
    Prop :=
  ∃ u, Walk g t u ∧ u ∈ t :: vis

/-- Claim-side predicate on the DFS `visited` list (newest vertex
first): every vertex was entered by a waits-for edge from the vertex
after it, i.e. the reversed list is a real path in the graph. -/
def IsChain (g : List (Nat × List Nat)) : List Nat → Prop
  | [] => True
  | [_] => True
  | b :: a :: rest => b ∈ adjOf g a ∧ IsChain g (a :: rest)

/-! ## Buffer pool manager (`buffer_pool_manager.cpp`, `lru_replacer.cpp`)

Frames are indexed by position in `frames`; a page's contents are an
abstract `Nat`.  The disk manager records an event log so that the
order of disk writes and reads is observable. -/

/-- Generic association-list lookup (`std::unordered_map::find`). -/
def assocFind (m : List (Nat × Nat)) (k : Nat) : Option Nat :=
  (m.find? (fun p => p.fst == k)).map Prod.snd

/-- Generic association-list update/insert (`map[k] = v`). -/
def assocSet (m : List (Nat × Nat)) (k v : Nat) : List (Nat × Nat) :=
  if (m.find? (fun p => p.fst == k)).isSome then
    m.map (fun p => if p.fst == k then (k, v) else p)
  else
    m ++ [(k, v)]

/-- Generic association-list erase (`map::erase(k)`). -/
def assocErase (m : List (Nat × Nat)) (k : Nat) : List (Nat × Nat) :=
  m.filter (fun p => p.fst != k)

/-- A buffer frame (`Page` object): current page id (`none` models
`INVALID_PAGE_ID`), pin count, dirty flag and abstract contents. -/
structure Frame where
  pageId : Option Nat
  pinCount : Nat
  dirty : Bool
  data : Nat
deriving DecidableEq, Repr

/-- A fresh frame: invalid page id, pin count 0, clean, zeroed data. -/
def Frame.init : Frame := ⟨none, 0, false, 0⟩

/-- Observable disk-manager events, in order. -/
inductive DiskEvent where
  | write (pid data : Nat)
  | read (pid : Nat)
deriving DecidableEq, Repr

/-- The disk manager: page store, allocation counter, event log. -/
structure DiskManager where
  store : List (Nat × Nat)
  nextPageId : Nat
  eventLog : List DiskEvent
deriving DecidableEq, Repr

/-- Models `DiskManager::ReadPage`: absent pages read as zeroes. -/
def DiskManager.readPage (d : DiskManager) (pid : Nat) : Nat × DiskManager :=
  ((assocFind d.store pid).getD 0,
   { d with eventLog := d.eventLog ++ [.read pid] })

/-- Models `DiskManager::WritePage`. -/
def DiskManager.writePage (d : DiskManager) (pid data : Nat) : DiskManager :=
  { d with
    store := assocSet d.store pid data,
    eventLog := d.eventLog ++ [.write pid data] }

/-- Models `DiskManager::AllocatePage`: hands out consecutive page ids. -/
def DiskManager.allocatePage (d : DiskManager) : Nat × DiskManager :=
  (d.nextPageId, { d with nextPageId := d.nextPageId + 1 })

/-- Models `LRUReplacer::Victim`: the least-recently unpinned frame is at the
back of the list (`Unpin` pushes to the front). -/
def lruVictim (l : List Nat) : Option (Nat × List Nat) :=
  match l.getLast? with
  | none => none
  | some f => some (f, l.dropLast)

/-- Models `LRUReplacer::Pin`: remove the frame if present; idempotent. -/
def lruPin (l : List Nat) (f : Nat) : List Nat := l.erase f

/-- Models `LRUReplacer::Unpin`: push to the front when absent and below
capacity; idempotent. -/
def lruUnpin (l : List Nat) (cap f : Nat) : List Nat :=
  if l.length < cap ∧ f ∉ l then f :: l else l

/-- Models `BufferPoolManager` state: fixed frame array, page table
(page id → frame id), free list, LRU replacer list with its capacity,
and the disk manager. -/
structure BPM where
  frames : List Frame
  pageTable : List (Nat × Nat)
  freeList : List Nat
  replacerList : List Nat
  replacerCap : Nat
  disk : DiskManager
deriving DecidableEq, Repr

/-- The initial pool of `n` frames: every frame fresh and on the free
list (constructor of `BufferPoolManager`). -/
def BPM.init (n : Nat) : BPM :=
  ⟨List.replicate n Frame.init, [], List.range n, [], n,
   ⟨[], 1, []⟩⟩

/-- Models `pages_[frame_id]` (out-of-range reads yield a fresh frame; all
analysed states stay in range). -/
def getFrame (bpm : BPM) (f : Nat) : Frame := bpm.frames.getD f Frame.init

/-- Write back `pages_[frame_id]`. -/
def setFrame (bpm : BPM) (f : Nat) (fr : Frame) : BPM :=
  { bpm with frames := bpm.frames.set f fr }

/-- Models `BufferPoolManager::ResetPageMetadata`: invalid page id, clean,
pin count 0 (the contents are not touched). -/
def resetPageMetadata (fr : Frame) : Frame :=
  { fr with pageId := none, dirty := false, pinCount := 0 }

/-- Models `BufferPoolManager::PinPageByFrameId`: remove from the replacer on
the 0→1 transition, then increment the pin count. -/
def pinPageByFrameId (bpm : BPM) (f : Nat) : BPM :=
  let fr := getFrame bpm f
  let bpm1 :=
    if fr.pinCount = 0 then
      { bpm with replacerList := lruPin bpm.replacerList f }
    else bpm
  setFrame bpm1 f { fr with pinCount := fr.pinCount + 1 }

/-- Models `BufferPoolManager::UnpinPageByFrameId`: error when the pin count
is already 0; otherwise decrement and hand the frame to the replacer on
the 1→0 transition. -/
def unpinPageByFrameId (bpm : BPM) (f : Nat) : Bool × BPM :=
  let fr := getFrame bpm f
  if fr.pinCount = 0 then
    (false, bpm)
  else
    let fr1 := { fr with pinCount := fr.pinCount - 1 }
    let bpm1 := setFrame bpm f fr1
    if fr1.pinCount = 0 then
      (true, { bpm1 with
        replacerList := lruUnpin bpm1.replacerList bpm1.replacerCap f })
    else
      (true, bpm1)

/-- Models `BufferPoolManager::AllocateFrame`: pop the free list, else take a
replacer victim, writing it back first when dirty and dropping its page
table entry.  (Frames handed to the replacer always hold a valid page
in reachable states; `getD 0` reads the victim's page id.) -/
def allocateFrame (bpm : BPM) : Option (Nat × BPM) :=
  match bpm.freeList with
  | [] =>
    match lruVictim bpm.replacerList with
    | none => none
    | some (f, rl) =>
      let bpm1 := { bpm with replacerList := rl }
      let victim := getFrame bpm1 f
      let vpid := victim.pageId.getD 0
      let bpm2 :=
        if victim.dirty then
          setFrame { bpm1 with disk := bpm1.disk.writePage vpid victim.data }
            f { victim with dirty := false }
        else bpm1
      let bpm3 := { bpm2 with pageTable := assocErase bpm2.pageTable vpid }
      some (f, setFrame bpm3 f (resetPageMetadata (getFrame bpm3 f)))
  | f :: rest =>
    some (f, setFrame { bpm with freeList := rest } f
      (resetPageMetadata (getFrame bpm f)))

/-- Models `BufferPoolManager::FetchPageImpl`: resident pages are pinned and
returned; otherwise a frame is allocated, the page read from disk into
it and the mapping installed.  Returns the frame id of the returned
`Page*`. -/
def fetchPage (bpm : BPM) (pid : Nat) : Option (Nat × BPM) :=
  match assocFind bpm.pageTable pid with
  | some f => some (f, pinPageByFrameId bpm f)
  | none =>
    match allocateFrame bpm with
    | none => none
    | some (f, bpm1) =>
      let bpm2 := setFrame bpm1 f (resetPageMetadata (getFrame bpm1 f))
      let (data, disk) := bpm2.disk.readPage pid
      let bpm3 := setFrame { bpm2 with disk := disk } f
        { getFrame bpm2 f with data := data, pageId := some pid }
      let bpm4 := pinPageByFrameId bpm3 f
      some (f, { bpm4 with pageTable := assocSet bpm4.pageTable pid f })

/-- Models `BufferPoolManager::NewPageImpl`: allocate a frame, ask the disk
manager for a fresh page id, zero the page, install the mapping, pin.
Returns `(page id, frame id, state)`. -/
def newPage (bpm : BPM) : Option (Nat × Nat × BPM) :=
  match allocateFrame bpm with
  | none => none
  | some (f, bpm1) =>
    let (pid, disk) := bpm1.disk.allocatePage
    let bpm2 := { bpm1 with disk := disk }
    let fr := getFrame bpm2 f
    let bpm3 := setFrame bpm2 f
      { resetPageMetadata { fr with data := 0 } with pageId := some pid }
    let bpm4 := pinPageByFrameId bpm3 f
    some (pid, f, { bpm4 with pageTable := assocSet bpm4.pageTable pid f })

/-- Models `BufferPoolManager::UnpinPageImpl`: or-fold `is_dirty` into the
frame's dirty bit, then decrement the pin count via
`UnpinPageByFrameId`. -/
def unpinPage (bpm : BPM) (pid : Nat) (isDirty : Bool) : Bool × BPM :=
  match assocFind bpm.pageTable pid with
  | none => (false, bpm)
  | some f =>
    let fr := getFrame bpm f
    let bpm1 := setFrame bpm f { fr with dirty := fr.dirty || isDirty }
    unpinPageByFrameId bpm1 f

/-- Test-harness helper (not a BPM member): what a caller does through
the returned `Page*` — overwrite the in-memory contents of a frame. -/
def writeFrameData (bpm : BPM) (f : Nat) (d : Nat) : BPM :=
  setFrame bpm f { getFrame bpm f with data := d }

/-! Spec §8 end-to-end scenario 1: a pool of two frames; `new_page`
twice (pages 1 and 2, both pinned), caller writes data 77 into page 1's
frame, fetch of page 3 fails, unpin page 1 dirty, fetch page 3
succeeds reusing page 1's frame after writing it back. -/

/-- Scenario: the empty pool of two frames. -/
def demoBPM0 : BPM := BPM.init 2

/-- Scenario: after `new_page` → page 1 in frame 0 (pinned). -/
def demoBPM1 : BPM := ((newPage demoBPM0).map (fun r => r.2.2)).getD demoBPM0

/-- Scenario: after `new_page` → page 2 in frame 1 (pinned). -/
def demoBPM2 : BPM := ((newPage demoBPM1).map (fun r => r.2.2)).getD demoBPM1

/-- Scenario: the caller writes contents 77 through page 1's frame. -/
def demoBPM3 : BPM := writeFrameData demoBPM2 0 77

/-- Scenario: after `unpin_page(1, is_dirty := true)`. -/
def demoBPM4 : BPM := (unpinPage demoBPM3 1 true).2

/-! ## B+ tree pages (`b_plus_tree_leaf_page.cpp`,
`b_plus_tree_internal_page.cpp`)

A page's slot array is modelled as a `List (Nat × Nat)` of fixed
capacity together with the separate `size` field, mirroring the C++
`array` / `size_` layout: the `std::move` based shifting below leaves
slots at indices `≥ size` holding their previous ("stale") contents,
exactly as in C++, and reads are *not* clipped to `size`. -/

/-- Read `array[i]` (fresh pages are zeroed by `Page::ResetMemory`, so
out-of-capacity reads yield `(0, 0)`; capacities are chosen so they do
not occur). -/
def slotGet (arr : List (Nat × Nat)) (i : Nat) : Nat × Nat :=
  arr.getD i (0, 0)

/-- Write `array[i] = x`. -/
def slotSet (arr : List (Nat × Nat)) (i : Nat) (x : Nat × Nat) :
    List (Nat × Nat) :=
  arr.set i x

/-- Models `std::move_backward(array + id, array + size, array + size + 1)`:
slots `(id, size]` take the value of their left neighbour; all other
slots (including `id` itself and the stale tail) are unchanged. -/
def shiftRightOne (arr : List (Nat × Nat)) (id size : Nat) :
    List (Nat × Nat) :=
  (List.range arr.length).map fun j =>
    if id < j ∧ j ≤ size then slotGet arr (j - 1) else slotGet arr j

/-- Models `std::move(array + id + 1, array + size, array + id)`: slots
`[id, size-1)` take the value of their right neighbour; slot `size - 1`
keeps its old (now stale) value. -/
def shiftLeftOne (arr : List (Nat × Nat)) (id size : Nat) :
    List (Nat × Nat) :=
  (List.range arr.length).map fun j =>
    if id ≤ j ∧ j + 1 < size then slotGet arr (j + 1) else slotGet arr j

/-- Models `std::move(src + srcStart, src + srcStart + count, dst + dstStart)`
between two different pages. -/
def copySlots (dst : List (Nat × Nat)) (dstStart : Nat)
    (src : List (Nat × Nat)) (srcStart count : Nat) : List (Nat × Nat) :=
  (List.range dst.length).map fun j =>
    if dstStart ≤ j ∧ j < dstStart + count then
      slotGet src (srcStart + (j - dstStart))
    else
      slotGet dst j

/-- Models `BiSearch` (identical in the leaf and internal pages): binary
search in `[l, r)` for the first slot whose key is ≥ the target,
mirroring the C++ `l`/`r` loop (keys are `Nat`, the comparator is the
natural order).  The `while (l < r)` loop shrinks `r - l` every
iteration, so `r - l` units of fuel make the recursion structural
without changing the result. -/
def biSearchLoop (arr : List (Nat × Nat)) (key : Nat) :
    Nat → Nat → Nat → Nat
  | 0, l, _ => l
  | fuel + 1, l, r =>
    if l < r then
      let mid := (l + r) / 2
      if key ≤ (slotGet arr mid).fst then biSearchLoop arr key fuel l mid
      else biSearchLoop arr key fuel (mid + 1) r
    else l

/-- Models `BiSearch` entry point. -/
def biSearchGo (arr : List (Nat × Nat)) (key l r : Nat) : Nat :=
  biSearchLoop arr key (r - l) l r

/-- Modelled from the spec: `BPlusTreePage::GetMinSize` — the file
`b_plus_tree_page.cpp` defining it is not among the given sources; the
spec fixes min_size = ⌈max_size/2⌉ ("Every non-root node has size ≥
`min_size` (⌈max_size/2⌉)"). -/
def getMinSize (maxSize : Nat) : Nat := (maxSize + 1) / 2

/-- A leaf page: `{page_id, parent_page_id, max_size, size, array,
next_page_id}`; `none` models `INVALID_PAGE_ID`. -/
structure LeafNode where
  pageId : Nat
  parent : Option Nat
  maxSize : Nat
  size : Nat
  arr : List (Nat × Nat)
  next : Option Nat
deriving DecidableEq, Repr

/-- An internal page: slot 0's key is the unused placeholder; values
are child page ids. -/
structure InternalNode where
  pageId : Nat
  parent : Option Nat
  maxSize : Nat
  size : Nat
  arr : List (Nat × Nat)
deriving DecidableEq, Repr

/-- A B+ tree page. -/
inductive Node where
  | leaf : LeafNode → Node
  | internal : InternalNode → Node
deriving DecidableEq, Repr

/-- Models `B_PLUS_TREE_LEAF_PAGE_TYPE::Init` on a fresh (zeroed) page; the
capacity `maxSize + 1` covers every slot the C++ code ever touches. -/
def leafInitNode (pid : Nat) (parent : Option Nat) (maxSize : Nat) :
    LeafNode :=
  ⟨pid, parent, maxSize, 0, List.replicate (maxSize + 1) (0, 0), none⟩

/-- Models `B_PLUS_TREE_INTERNAL_PAGE_TYPE::Init` on a fresh (zeroed) page. -/
def internalInitNode (pid : Nat) (parent : Option Nat) (maxSize : Nat) :
    InternalNode :=
  ⟨pid, parent, maxSize, 0, List.replicate (maxSize + 1) (0, 0)⟩

/-- Leaf `BiSearch` over `[0, size)`. -/
def LeafNode.biSearch (n : LeafNode) (key : Nat) : Nat :=
  biSearchGo n.arr key 0 n.size

/-- Models `B_PLUS_TREE_LEAF_PAGE_TYPE::Insert` (lines 80-92): note that the
duplicate test reads `array[id]` without checking `id < size_`, so a
stale slot just past the end can shadow a genuinely absent key.
Returns the size after insertion together with the updated page. -/
def LeafNode.insert (n : LeafNode) (key value : Nat) : Nat × LeafNode :=
  let id := n.biSearch key
  if n.size > 0 ∧ (slotGet n.arr id).fst = key then
    (n.size, n)
  else
    let arr1 := slotSet (shiftRightOne n.arr id n.size) id (key, value)
    (n.size + 1, { n with arr := arr1, size := n.size + 1 })

/-- Models `B_PLUS_TREE_LEAF_PAGE_TYPE::Lookup`. -/
def LeafNode.lookup (n : LeafNode) (key : Nat) : Option Nat :=
  let id := n.biSearch key
  if id ≥ n.size ∨ (slotGet n.arr id).fst ≠ key then none
  else some (slotGet n.arr id).snd

/-- Models `B_PLUS_TREE_LEAF_PAGE_TYPE::RemoveAndDeleteRecord`: shift left
over the removed slot; the old last slot keeps its (stale) value. -/
def LeafNode.removeAndDeleteRecord (n : LeafNode) (key : Nat) : LeafNode :=
  let id := n.biSearch key
  if id ≥ n.size ∨ (slotGet n.arr id).fst ≠ key then n
  else { n with arr := shiftLeftOne n.arr id n.size, size := n.size - 1 }

/-- Models `B_PLUS_TREE_LEAF_PAGE_TYPE::MoveHalfTo` (split, only called with
`size == max_size`): the upper `max_size - min_size` slots move to the
fresh right sibling, the leaf chain is relinked. -/
def LeafNode.moveHalfTo (n r : LeafNode) : LeafNode × LeafNode :=
  let minSize := getMinSize n.maxSize
  let moved := n.maxSize - minSize
  let r1 := { r with
    arr := copySlots r.arr 0 n.arr minSize moved,
    size := r.size + moved,
    next := n.next }
  ({ n with size := n.size - moved, next := some r.pageId }, r1)

/-- Models `B_PLUS_TREE_LEAF_PAGE_TYPE::MoveAllTo` (merge into the left
sibling `r`). -/
def LeafNode.moveAllTo (n r : LeafNode) : LeafNode × LeafNode :=
  let r1 := { r with
    arr := copySlots r.arr r.size n.arr 0 n.size,
    size := r.size + n.size,
    next := n.next }
  ({ n with size := 0 }, r1)

/-- Models `B_PLUS_TREE_LEAF_PAGE_TYPE::MoveFirstToEndOf`. -/
def LeafNode.moveFirstToEndOf (n r : LeafNode) : LeafNode × LeafNode :=
  let r1 := { r with
    arr := copySlots r.arr r.size n.arr 0 1,
    size := r.size + 1 }
  ({ n with arr := shiftLeftOne n.arr 0 n.size, size := n.size - 1 }, r1)

/-- Models `B_PLUS_TREE_LEAF_PAGE_TYPE::MoveLastToFrontOf`. -/
def LeafNode.moveLastToFrontOf (n r : LeafNode) : LeafNode × LeafNode :=
  let r1 := { r with
    arr := slotSet (shiftRightOne r.arr 0 r.size) 0
      (slotGet n.arr (n.size - 1)),
    size := r.size + 1 }
  ({ n with size := n.size - 1 }, r1)

/-- Internal `BiSearch` over `[1, size)` (slot 0's key is skipped). -/
def InternalNode.biSearch (n : InternalNode) (key : Nat) : Nat :=
  biSearchGo n.arr key 1 n.size

/-- Models `B_PLUS_TREE_INTERNAL_PAGE_TYPE::Lookup`: child pointer for the
key's range. -/
def InternalNode.lookup (n : InternalNode) (key : Nat) : Nat :=
  let id := n.biSearch key
  if id ≥ n.size ∨ (slotGet n.arr id).fst > key then
    (slotGet n.arr (id - 1)).snd
  else
    (slotGet n.arr id).snd

/-- Models `B_PLUS_TREE_INTERNAL_PAGE_TYPE::ValueIndex`: linear scan for the
slot holding a child id; `size` when absent. -/
def InternalNode.valueIndex (n : InternalNode) (v : Nat) : Nat :=
  match (n.arr.take n.size).findIdx? (fun p => p.snd = v) with
  | some i => i
  | none => n.size

/-- Models `KeyAt`. -/
def InternalNode.keyAt (n : InternalNode) (i : Nat) : Nat :=
  (slotGet n.arr i).fst

/-- Models `ValueAt`. -/
def InternalNode.valueAt (n : InternalNode) (i : Nat) : Nat :=
  (slotGet n.arr i).snd

/-- Models `SetKeyAt`. -/
def InternalNode.setKeyAt (n : InternalNode) (i k : Nat) : InternalNode :=
  { n with arr := slotSet n.arr i (k, (slotGet n.arr i).snd) }

/-- Models `InsertNodeAfter`: insert `(newK, newV)` right after the slot whose
value is `oldV`. -/
def InternalNode.insertNodeAfter (n : InternalNode) (oldV newK newV : Nat) :
    InternalNode :=
  let id := n.valueIndex oldV + 1
  { n with
    arr := slotSet (shiftRightOne n.arr id n.size) id (newK, newV),
    size := n.size + 1 }

/-- Models `Remove(index)`. -/
def InternalNode.removeAt (n : InternalNode) (idx : Nat) : InternalNode :=
  { n with arr := shiftLeftOne n.arr idx n.size, size := n.size - 1 }

/-- Models `PopulateNewRoot`: `array[0].second = old; array[1] = (key, new);
size = 2` (slot 0's key keeps the fresh page's zero). -/
def InternalNode.populateNewRoot (n : InternalNode) (oldV newK newV : Nat) :
    InternalNode :=
  { n with
    arr := slotSet (slotSet n.arr 0 ((slotGet n.arr 0).fst, oldV)) 1
      (newK, newV),
    size := 2 }

/-- Projections shared by both page kinds. -/
def Node.size : Node → Nat
  | .leaf l => l.size
  | .internal n => n.size

/-- Models `GetMaxSize`. -/
def Node.maxSize : Node → Nat
  | .leaf l => l.maxSize
  | .internal n => n.maxSize

/-- Models `GetParentPageId` (`none` = `INVALID_PAGE_ID`, i.e. the root). -/
def Node.parent : Node → Option Nat
  | .leaf l => l.parent
  | .internal n => n.parent

/-- Models `GetPageId`. -/
def Node.pageId : Node → Nat
  | .leaf l => l.pageId
  | .internal n => n.pageId

/-- Models `SetParentPageId`. -/
def Node.setParent : Node → Option Nat → Node
  | .leaf l, p => .leaf { l with parent := p }
  | .internal n, p => .internal { n with parent := p }

/-- Models `IsLeafPage`. -/
def Node.isLeaf : Node → Bool
  | .leaf _ => true
  | .internal _ => false

/-- The visible keys of a page: the first `size` slots' keys. -/
def Node.keys : Node → List Nat
  | .leaf l => (l.arr.take l.size).map Prod.fst
  | .internal n => (n.arr.take n.size).map Prod.fst

/-- The child page ids of an internal page. -/
def Node.childIds : Node → List Nat
  | .leaf _ => []
  | .internal n => (n.arr.take n.size).map Prod.snd

/-! ## B+ tree (`b_plus_tree.cpp`)

The buffer pool is abstracted into a page store (page id → page);
`nextPage` is the disk allocator counter (`NewPage`).  Recursive
procedures carry explicit fuel; the per-operation fuel
`store.length + 1` exceeds the height of any tree in the store, and
assertion failures / unreachable branches return `none`. -/

/-- The page store of a tree. -/
abbrev PageStore := List (Nat × Node)

/-- Fetch a page from the store. -/
def getPage (store : PageStore) (pid : Nat) : Option Node :=
  (store.find? (fun p => p.fst == pid)).map Prod.snd

/-- Write a page back to the store (insert if fresh). -/
def setPage (store : PageStore) (pid : Nat) (n : Node) : PageStore :=
  if (store.find? (fun p => p.fst == pid)).isSome then
    store.map (fun p => if p.fst == pid then (pid, n) else p)
  else
    store ++ [(pid, n)]

/-- Models `BatchChangeChildParentId(start, end)`: re-parent the children in
slots `[start, end)` of `n` to `n` itself. -/
def batchChangeChildParentId (store : PageStore) (n : InternalNode)
    (start fin : Nat) : PageStore :=
  (List.range' start (fin - start)).foldl
    (fun st i =>
      match getPage st (slotGet n.arr i).snd with
      | some c => setPage st (slotGet n.arr i).snd (c.setParent (some n.pageId))
      | none => st)
    store

/-- Models `B_PLUS_TREE_INTERNAL_PAGE_TYPE::MoveHalfTo`: upper half to the
fresh right sibling, adopting the moved children. -/
def InternalNode.moveHalfTo (n r : InternalNode) (store : PageStore) :
    InternalNode × InternalNode × PageStore :=
  let minSize := getMinSize n.maxSize
  let moved := n.maxSize - minSize
  let r1 := { r with arr := copySlots r.arr r.size n.arr minSize moved }
  let store1 := batchChangeChildParentId store r1 r.size (r.size + moved)
  ({ n with size := n.size - moved }, { r1 with size := r.size + moved },
   store1)

/-- Models `B_PLUS_TREE_INTERNAL_PAGE_TYPE::MoveAllTo`: the parent's middle
key overwrites slot 0's placeholder, everything is appended to the left
sibling `r`, moved children are adopted. -/
def InternalNode.moveAllTo (n r : InternalNode) (middleKey : Nat)
    (store : PageStore) : InternalNode × InternalNode × PageStore :=
  let n1 := { n with arr := slotSet n.arr 0 (middleKey, (slotGet n.arr 0).snd) }
  let r1 := { r with arr := copySlots r.arr r.size n1.arr 0 n1.size }
  let store1 := batchChangeChildParentId store r1 r.size (r.size + n1.size)
  ({ n1 with size := 0 }, { r1 with size := r.size + n1.size }, store1)

/-- Models `B_PLUS_TREE_INTERNAL_PAGE_TYPE::MoveFirstToEndOf`. -/
def InternalNode.moveFirstToEndOf (n r : InternalNode) (middleKey : Nat)
    (store : PageStore) : InternalNode × InternalNode × PageStore :=
  let r1 := { r with
    arr := slotSet r.arr r.size (middleKey, (slotGet n.arr 0).snd) }
  let store1 := batchChangeChildParentId store r1 r.size (r.size + 1)
  ({ n with arr := shiftLeftOne n.arr 0 n.size, size := n.size - 1 },
   { r1 with size := r.size + 1 }, store1)

/-- Models `B_PLUS_TREE_INTERNAL_PAGE_TYPE::MoveLastToFrontOf`. -/
def InternalNode.moveLastToFrontOf (n r : InternalNode) (middleKey : Nat)
    (store : PageStore) : InternalNode × InternalNode × PageStore :=
  let r1 := { r with
    arr := slotSet (shiftRightOne r.arr 0 r.size) 0
      (middleKey, (slotGet n.arr (n.size - 1)).snd) }
  let store1 := batchChangeChildParentId store r1 0 1
  ({ n with size := n.size - 1 }, { r1 with size := r.size + 1 }, store1)

/-- The B+ tree: page store, `root_page_id_` (`none` = empty tree),
the two max sizes, and the disk page allocator counter. -/
structure BTree where
  store : PageStore
  root : Option Nat
  leafMax : Nat
  internalMax : Nat
  nextPage : Nat
deriving DecidableEq, Repr

/-- The empty tree with the given max sizes. -/
def BTree.empty (leafMax internalMax : Nat) : BTree :=
  ⟨[], none, leafMax, internalMax, 1⟩

/-- The descent loop of `FindLeafPageWithOperationInternal` (ignoring
latches): follow `Lookup` (or slot 0 when `leftMost`) from `pid` down
to a leaf, returning its page id. -/
def findLeafLoop (t : BTree) :
    Nat → Nat → Nat → Bool → Option Nat
  | 0, _, _, _ => none
  | fuel + 1, pid, key, leftMost =>
    match getPage t.store pid with
    | none => none
    | some (.leaf _) => some pid
    | some (.internal n) =>
      findLeafLoop t fuel (if leftMost then n.valueAt 0 else n.lookup key)
        key leftMost

/-- Models `IndexOperationType`. -/
inductive IndexOpType where
  | search
  | insert
  | remove
deriving DecidableEq, Repr

/-- The write-path descent of `FindLeafPageWithOperationInternal`
(lines 619-693) with its latch-crabbing bookkeeping: at every node, if
the node is safe for the operation (`size < max_size - 2` for INSERT,
`size > min_size` for REMOVE) the pages held so far are all released
(`BatchUnpinTransactionWLatch`), then the node is added to the page
set.  Returns the leaf page id and the page set still held. -/
def findLeafCrab (t : BTree) :
    Nat → Nat → Nat → Bool → IndexOpType → List Nat →
      Option (Nat × List Nat)
  | 0, _, _, _, _, _ => none
  | fuel + 1, pid, key, leftMost, op, held =>
    match getPage t.store pid with
    | none => none
    | some node =>
      let held1 :=
        match op with
        | .search => held
        | .insert =>
          (if node.size < node.maxSize - 2 then [] else held) ++ [pid]
        | .remove =>
          (if node.size > getMinSize node.maxSize then [] else held) ++ [pid]
      match node with
      | .leaf _ => some (pid, held1)
      | .internal n =>
        findLeafCrab t fuel (if leftMost then n.valueAt 0 else n.lookup key)
          key leftMost op held1

/-- The root-to-leaf descent path (page ids with their pages), the same
route `findLeafLoop` and `findLeafCrab` take. -/
def descendPath (t : BTree) :
    Nat → Nat → Nat → Bool → Option (List (Nat × Node))
  | 0, _, _, _ => none
  | fuel + 1, pid, key, leftMost =>
    match getPage t.store pid with
    | none => none
    | some (.leaf l) => some [(pid, .leaf l)]
    | some (.internal n) =>
      (descendPath t fuel (if leftMost then n.valueAt 0 else n.lookup key)
          key leftMost).map
        (fun rest => (pid, .internal n) :: rest)

/-- Claim-side bookkeeping: folding the crabbing rule "release all held
ancestors at a safe node, then add the node" along a path. -/
def crabHeld (safe : Node → Bool) (path : List (Nat × Node))
    (held : List Nat) : List Nat :=
  path.foldl (fun h p => (if safe p.snd then [] else h) ++ [p.fst]) held

/-- Claim-side: the index in `path` of the last safe node, i.e. where
the still-held suffix starts (0 when no node is safe). -/
def lastSafeStart (safe : Node → Bool) (path : List (Nat × Node)) : Nat :=
  match path.reverse.findIdx? (fun p => safe p.snd) with
  | some j => path.length - 1 - j
  | none => 0

/-- The write-path insert-safety gate as the code has it
(`b_plus_tree.cpp:669`): `size < max_size - 2`. -/
def insertSafeNode (n : Node) : Bool := n.size < n.maxSize - 2

/-- The write-path remove-safety gate (`b_plus_tree.cpp:674`):
`size > min_size`. -/
def removeSafeNode (n : Node) : Bool := getMinSize n.maxSize < n.size

/-- Models `BPLUSTREE_TYPE::Split` followed by `InsertIntoParent` (lines
198-296), recursing up the tree while parents overflow.  `none` models
the `assert(node->GetSize() == node->GetMaxSize())` failure, a missing
page, or fuel exhaustion (never hit with fuel above the tree height). -/
def splitNode : Nat → BTree → Nat → Option BTree
  | 0, _, _ => none
  | fuel + 1, t, pid =>
    match getPage t.store pid with
    | none => none
    | some node =>
      if node.size ≠ node.maxSize then none
      else
        let rightPid := t.nextPage
        let t0 := { t with nextPage := t.nextPage + 1 }
        let res : Option (Nat × BTree) :=
          match node with
          | .leaf l =>
            let (l1, r1) :=
              l.moveHalfTo (leafInitNode rightPid l.parent t0.leafMax)
            let store1 :=
              setPage (setPage t0.store pid (.leaf l1)) rightPid (.leaf r1)
            some ((slotGet r1.arr 0).fst, { t0 with store := store1 })
          | .internal n =>
            let (n1, r1, store1) :=
              n.moveHalfTo (internalInitNode rightPid n.parent t0.internalMax)
                t0.store
            let store2 :=
              setPage (setPage store1 pid (.internal n1)) rightPid
                (.internal r1)
            some ((slotGet r1.arr 0).fst, { t0 with store := store2 })
        match res with
        | none => none
        | some (sepKey, t1) =>
          -- InsertIntoParent(old = pid, sepKey, new = rightPid)
          match node.parent with
          | none =>
            -- the split node was the root: fresh root via PopulateNewRoot
            let rootPid := t1.nextPage
            let t2 := { t1 with nextPage := t1.nextPage + 1 }
            let rootNode :=
              (internalInitNode rootPid none t2.internalMax).populateNewRoot
                pid sepKey rightPid
            match getPage t2.store pid, getPage t2.store rightPid with
            | some oldN, some newN =>
              let store3 :=
                setPage
                  (setPage
                    (setPage t2.store rootPid (.internal rootNode))
                    pid (oldN.setParent (some rootPid)))
                  rightPid (newN.setParent (some rootPid))
              some { t2 with store := store3, root := some rootPid }
            | _, _ => none
          | some parentPid =>
            match getPage t1.store parentPid with
            | some (.internal p) =>
              let p1 := p.insertNodeAfter pid sepKey rightPid
              let t2 :=
                { t1 with store := setPage t1.store parentPid (.internal p1) }
              if p1.size ≥ p1.maxSize then splitNode fuel t2 parentPid
              else some t2
            | _ => none

/-- Models `BPLUSTREE_TYPE::InsertIntoLeaf` (lines 140-189): find the leaf,
reject the full-leaf assertion, insert, split when `size ≥ max_size`;
`false` exactly when the leaf insert left the size unchanged
(duplicate detection). -/
def insertIntoLeaf (t : BTree) (key value : Nat) : Option (Bool × BTree) :=
  match t.root with
  | none => none
  | some rootPid =>
    match findLeafLoop t (t.store.length + 1) rootPid key false with
    | none => none
    | some leafPid =>
      match getPage t.store leafPid with
      | some (.leaf l) =>
        if l.size ≥ l.maxSize then none
        else
          let (newSize, l1) := l.insert key value
          if newSize = l.size then some (false, t)
          else
            let t1 := { t with store := setPage t.store leafPid (.leaf l1) }
            if l1.size ≥ l1.maxSize then
              (splitNode (t1.store.length + 1) t1 leafPid).map
                (fun t2 => (true, t2))
            else some (true, t1)
      | _ => none

/-- Models `BPLUSTREE_TYPE::Insert` (lines 88-107): `StartNewTree` on the
empty tree, else `InsertIntoLeaf`. -/
def treeInsert (t : BTree) (key value : Nat) : Option (Bool × BTree) :=
  match t.root with
  | none =>
    let pid := t.nextPage
    let (_, leaf1) := (leafInitNode pid none t.leafMax).insert key value
    some (true,
      { t with
        store := setPage t.store pid (.leaf leaf1),
        root := some pid,
        nextPage := pid + 1 })
  | some _ => insertIntoLeaf t key value

/-- Models `BPLUSTREE_TYPE::GetValue`: descend to the leaf and look the key
up; outer `none` only for a malformed tree / empty root. -/
def getValue (t : BTree) (key : Nat) : Option (Option Nat) :=
  match t.root with
  | none => none
  | some rootPid =>
    match findLeafLoop t (t.store.length + 1) rootPid key false with
    | none => none
    | some leafPid =>
      match getPage t.store leafPid with
      | some (.leaf l) => some (l.lookup key)
      | _ => none

/-- Models `BPLUSTREE_TYPE::DeleteEntry` (lines 335-451): remove the key from
the node; at the root run `AdjustRoot`; on underflow pick the previous
sibling when one exists (else the next), then coalesce when the two
sizes fit below `max_size` (right merged into left, recursing on the
parent with the separator key) or redistribute one entry and patch the
parent's separator. -/
def deleteEntry : Nat → BTree → Nat → Nat → Option BTree
  | 0, _, _, _ => none
  | fuel + 1, t, pid, key =>
    match getPage t.store pid with
    | none => none
    | some node =>
      let node1 : Node :=
        match node with
        | .leaf l => .leaf (l.removeAndDeleteRecord key)
        | .internal n => .internal (n.removeAt (n.valueIndex (n.lookup key)))
      let t1 := { t with store := setPage t.store pid node1 }
      if node1.parent = none then
        -- AdjustRoot (lines 523-546)
        match node1 with
        | .internal n1 =>
          if n1.size = 1 then
            match getPage t1.store (n1.valueAt 0) with
            | none => none
            | some child =>
              let store2 :=
                setPage t1.store (n1.valueAt 0) (child.setParent none)
              some { t1 with store := store2, root := some (n1.valueAt 0) }
          else some t1
        | .leaf l1 =>
          if l1.size = 0 then some { t1 with root := none }
          else some t1
      else if node1.size < getMinSize node1.maxSize then
        match node1.parent with
        | none => none
        | some parentPid =>
          match getPage t1.store parentPid with
          | some (.internal parent) =>
            let idx := parent.valueIndex pid
            let siblingIdx := if idx = 0 then 1 else idx - 1
            let middleIdx := max idx siblingIdx
            let middleKey := parent.keyAt middleIdx
            let siblingPid := parent.valueAt siblingIdx
            match getPage t1.store siblingPid with
            | none => none
            | some sibling =>
              if node1.size + sibling.size < node1.maxSize then
                -- coalesce: right-hand node merged into the left-hand one
                let (leftPid, left, rightPid, right) :=
                  if idx > siblingIdx then (siblingPid, sibling, pid, node1)
                  else (pid, node1, siblingPid, sibling)
                match left, right with
                | .leaf ll, .leaf rl =>
                  let (rl1, ll1) := rl.moveAllTo ll
                  let store2 :=
                    setPage (setPage t1.store leftPid (.leaf ll1)) rightPid
                      (.leaf rl1)
                  deleteEntry fuel { t1 with store := store2 } parentPid
                    middleKey
                | .internal li, .internal ri =>
                  let (ri1, li1, store1) := ri.moveAllTo li middleKey t1.store
                  let store2 :=
                    setPage (setPage store1 leftPid (.internal li1)) rightPid
                      (.internal ri1)
                  deleteEntry fuel { t1 with store := store2 } parentPid
                    middleKey
                | _, _ => none
              else if siblingIdx < idx then
                -- redistribute: take the last entry of the previous sibling
                match sibling, node1 with
                | .leaf sl, .leaf nl =>
                  let middleKey1 := (slotGet sl.arr (sl.size - 1)).fst
                  let (sl1, nl1) := sl.moveLastToFrontOf nl
                  let parent1 := parent.setKeyAt middleIdx middleKey1
                  let store2 :=
                    setPage
                      (setPage (setPage t1.store siblingPid (.leaf sl1)) pid
                        (.leaf nl1))
                      parentPid (.internal parent1)
                  some { t1 with store := store2 }
                | .internal si, .internal ni =>
                  let middleKey1 := (slotGet si.arr (si.size - 1)).fst
                  let (si1, ni1, store1) :=
                    si.moveLastToFrontOf ni middleKey1 t1.store
                  let parent1 := parent.setKeyAt middleIdx middleKey1
                  let store2 :=
                    setPage
                      (setPage (setPage store1 siblingPid (.internal si1)) pid
                        (.internal ni1))
                      parentPid (.internal parent1)
                  some { t1 with store := store2 }
                | _, _ => none
              else
                -- redistribute: take the first entry of the next sibling
                match sibling, node1 with
                | .leaf sl, .leaf nl =>
                  let (sl1, nl1) := sl.moveFirstToEndOf nl
                  let middleKey1 := (slotGet sl1.arr 0).fst
                  let parent1 := parent.setKeyAt middleIdx middleKey1
                  let store2 :=
                    setPage
                      (setPage (setPage t1.store siblingPid (.leaf sl1)) pid
                        (.leaf nl1))
                      parentPid (.internal parent1)
                  some { t1 with store := store2 }
                | .internal si, .internal ni =>
                  let (si1, ni1, store1) :=
                    si.moveFirstToEndOf ni middleKey t1.store
                  let middleKey1 := (slotGet si1.arr 0).fst
                  let parent1 := parent.setKeyAt middleIdx middleKey1
                  let store2 :=
                    setPage
                      (setPage (setPage store1 siblingPid (.internal si1)) pid
                        (.internal ni1))
                      parentPid (.internal parent1)
                  some { t1 with store := store2 }
                | _, _ => none
          | _ => none
      else
        some t1

/-- Models `BPLUSTREE_TYPE::Remove` (lines 309-332): no-op on the empty tree,
else find the leaf and run `DeleteEntry`. -/
def treeRemove (t : BTree) (key : Nat) : Option BTree :=
  match t.root with
  | none => some t
  | some rootPid =>
    match findLeafLoop t (t.store.length + 1) rootPid key false with
    | none => none
    | some leafPid =>
      match getPage t.store leafPid with
      | some (.leaf _) => deleteEntry (t.store.length + 1) t leafPid key
      | _ => none

/-! Concrete B+ trees used by the claims.  `chainGetD` extracts the
tree from an operation known to succeed. -/

/-- Extract the resulting tree of a `treeInsert` step. -/
def insStep (t : BTree) (k v : Nat) : BTree :=
  ((treeInsert t k v).map Prod.snd).getD t

/-- Extract the resulting tree of a `treeRemove` step. -/
def rmStep (t : BTree) (k : Nat) : BTree := (treeRemove t k).getD t

/-- Empty tree, leaf and internal `max_size` 4 (spec scenarios 2-3). -/
def demoT0 : BTree := BTree.empty 4 4

/-- After inserting 1, 2, 3 (values = 10·key). -/
def demoT3 : BTree := insStep (insStep (insStep demoT0 1 10) 2 20) 3 30

/-- After inserting 4: the leaf split. -/
def demoT4 : BTree := insStep demoT3 4 40

/-- After inserting 0. -/
def demoT5 : BTree := insStep demoT4 0 0

/-- After removing 3. -/
def demoT6 : BTree := rmStep demoT5 3

/-- After removing 4. -/
def demoT7 : BTree := rmStep demoT6 4

/-- C1 failing input, step 1-2: empty tree (leaf max 4), insert 1 then
2 — a single root leaf `[1, 2]`. -/
def bugT2 : BTree := insStep (insStep demoT0 1 10) 2 20

/-- C1 failing input, step 3: remove 2.  The root leaf holds `[1]`,
and slot 1 retains the stale pair `(2, 20)` past `size`. -/
def bugT3 : BTree := rmStep bugT2 2

/-- A two-level tree (root page 1 over leaves 2 and 3, all max_size 4)
used to exercise the crabbing release gate: both leaves have size 2 =
max_size − 2. -/
def crabDemoTree : BTree :=
  ⟨[(1, .internal ⟨1, none, 4, 2,
      [(0, 2), (3, 3), (0, 0), (0, 0), (0, 0)]⟩),
    (2, .leaf ⟨2, some 1, 4, 2,
      [(1, 1), (2, 2), (0, 0), (0, 0), (0, 0)], some 3⟩),
    (3, .leaf ⟨3, some 1, 4, 2,
      [(3, 3), (4, 4), (0, 0), (0, 0), (0, 0)], none⟩)],
   some 1, 4, 4, 4⟩

/-- The descent path of `crabDemoTree` for key 1: root page 1, then
leaf page 2. -/
def crabDemoPath : List (Nat × Node) :=
  [(1, .internal ⟨1, none, 4, 2,
     [(0, 2), (3, 3), (0, 0), (0, 0), (0, 0)]⟩),
   (2, .leaf ⟨2, some 1, 4, 2,
     [(1, 1), (2, 2), (0, 0), (0, 0), (0, 0)], some 3⟩)]

/-! ## Theorems about the lock manager -/

/-- C6 counterexample: on the waits-for graph
`1→5, 5→2, 2→3, 3→2` the only cycle is `2→3→2` (its largest vertex is
3), yet `HasCycle` reports victim 5 — the largest id on the DFS path
`5,2,3` at the moment the back edge is found.  Vertex 5 lies on no
cycle at all (it is not reachable from its own successor), so the
reported victim is not "the largest transaction id among the vertices
of the discovered cycle". -/
theorem hasCycle_victim_not_on_cycle :
    hasCycle [(1, [5]), (2, [3]), (3, [2]), (5, [2])] = some 5 ∧
    onCycle [(1, [5]), (2, [3]), (3, [2]), (5, [2])] 5 = false ∧
    onCycle [(1, [5]), (2, [3]), (3, [2]), (5, [2])] 2 = true ∧
    onCycle [(1, [5]), (2, [3]), (3, [2]), (5, [2])] 3 = true :=
  ⟨rfl, rfl, rfl, rfl⟩

/-- Unfolding equation for `restSum` on a cons cell. -/
theorem restSum_cons_entry (p : Nat × List Nat)
    (g : List (Nat × List Nat)) (vis : List Nat) :
    restSum (p :: g) vis
      = restSum g vis + (if p.fst ∈ vis then 0 else 1 + p.snd.length) :=
  rfl

/-- Adding to the path a vertex that is not a key of the map leaves
`restSum` unchanged. -/
theorem restSum_cons_not_key :
    ∀ (g : List (Nat × List Nat)) (t : Nat) (vis : List Nat),
      (∀ p ∈ g, p.fst ≠ t) → restSum g (t :: vis) = restSum g vis := by
  intro g t vis
  induction g with
  | nil => intro _; rfl
  | cons p rest ih =>
    intro h
    have hp : p.fst ≠ t := h p (List.mem_cons_self p rest)
    have hr := ih (fun q hq => h q (List.mem_cons_of_mem p hq))
    rw [restSum_cons_entry, restSum_cons_entry, hr]
    congr 1
    by_cases hv : p.fst ∈ vis
    · simp [hv]
    · simp [List.mem_cons, hp, hv]

/-- Adding to the path a key of the map (keys distinct, as `std::map`
guarantees) removes exactly that key's `1 + deg` from `restSum`. -/
theorem restSum_cons_key :
    ∀ g : List (Nat × List Nat), (g.map Prod.fst).Nodup →
      ∀ (t : Nat) (adjt : List Nat) (vis : List Nat), t ∉ vis →
        (t, adjt) ∈ g →
        restSum g (t :: vis) + (1 + adjt.length) = restSum g vis := by
  intro g
  induction g with
  | nil => intro _ t adjt vis _ hmem; cases hmem
  | cons p rest ih =>
    intro hnd t adjt vis htv hmem
    have hnd' := hnd
    simp only [List.map_cons, List.nodup_cons] at hnd'
    obtain ⟨hnd1, hnd2⟩ := hnd'
    rcases List.mem_cons.mp hmem with he | hm
    · have hrest : ∀ q ∈ rest, q.fst ≠ t := by
        intro q hq hqt
        apply hnd1
        rw [← he]
        exact List.mem_map.mpr ⟨q, hq, hqt⟩
      have hpef : p.fst = t := by rw [← he]
      have hps : p.snd = adjt := by rw [← he]
      rw [restSum_cons_entry, restSum_cons_entry,
        restSum_cons_not_key rest t vis hrest, hpef, hps]
      simp [htv]
    · have ht : t ∈ rest.map Prod.fst :=
        List.mem_map.mpr ⟨(t, adjt), hm, rfl⟩
      have hpt : p.fst ≠ t := fun he2 => hnd1 (by rw [he2]; exact ht)
      have hr := ih hnd2 t adjt vis htv hm
      rw [restSum_cons_entry, restSum_cons_entry]
      have h1 : (if p.fst ∈ t :: vis then 0 else 1 + p.snd.length)
          = (if p.fst ∈ vis then 0 else 1 + p.snd.length) := by
        by_cases hv : p.fst ∈ vis
        · simp [hv]
        · simp [List.mem_cons, hpt, hv]
      rw [h1]
      omega

/-- With distinct keys, `adjOf` returns exactly the entry stored for a
key present in the map. -/
theorem adjOf_eq_of_mem :
    ∀ g : List (Nat × List Nat), (g.map Prod.fst).Nodup →
      ∀ (t : Nat) (adjt : List Nat), (t, adjt) ∈ g → adjOf g t = adjt := by
  intro g
  induction g with
  | nil => intro _ t adjt hmem; cases hmem
  | cons p rest ih =>
    intro hnd t adjt hmem
    have hnd' := hnd
    simp only [List.map_cons, List.nodup_cons] at hnd'
    obtain ⟨hnd1, hnd2⟩ := hnd'
    rcases List.mem_cons.mp hmem with he | hm
    · have hpef : p.fst = t := by rw [← he]
      have hps : p.snd = adjt := by rw [← he]
      simp only [adjOf]
      rw [List.find?_cons_of_pos _ (by simp [hpef])]
      exact hps
    · have ht : t ∈ rest.map Prod.fst :=
        List.mem_map.mpr ⟨(t, adjt), hm, rfl⟩
      have hpt : p.fst ≠ t := fun he2 => hnd1 (by rw [he2]; exact ht)
      simp only [adjOf]
      rw [List.find?_cons_of_neg _ (by simp [hpt])]
      exact ih hnd2 t adjt hm

/-- `adjOf` of a vertex that is not a key is the empty adjacency (the
C++ `operator[]` default). -/
theorem adjOf_eq_nil_of_not_key :
    ∀ (g : List (Nat × List Nat)) (t : Nat),
      (∀ p ∈ g, p.fst ≠ t) → adjOf g t = [] := by
  intro g t
  induction g with
  | nil => intro _; rfl
  | cons p rest ih =>
    intro h
    have hp : p.fst ≠ t := h p (List.mem_cons_self p rest)
    simp only [adjOf]
    rw [List.find?_cons_of_neg _ (by simp [hp])]
    exact ih (fun q hq => h q (List.mem_cons_of_mem p hq))

/-- The adjacency `adjOf g s` is either empty or the stored entry of
`s`. -/
theorem adjOf_mem_or_nil (g : List (Nat × List Nat)) (s : Nat) :
    adjOf g s = [] ∨ (s, adjOf g s) ∈ g := by
  rcases hf : g.find? (fun p => p.fst == s) with _ | p
  · left
    simp [adjOf, hf]
  · right
    have hadj : adjOf g s = p.snd := by simp [adjOf, hf]
    have hp := List.mem_of_find?_eq_some hf
    have hps : p.fst = s := by simpa using List.find?_some hf
    rw [hadj, ← hps]
    exact hp

/-- Each entry's `1 + deg` is at most the graph total. -/
theorem restSum_entry_le :
    ∀ (g : List (Nat × List Nat)) (p : Nat × List Nat), p ∈ g →
      1 + p.snd.length ≤ restSum g [] := by
  intro g
  induction g with
  | nil => intro p hp; cases hp
  | cons q rest ih =>
    intro p hp
    rw [restSum_cons_entry]
    have hq : (if q.fst ∈ ([] : List Nat) then 0 else 1 + q.snd.length)
        = 1 + q.snd.length := by simp
    rw [hq]
    rcases List.mem_cons.mp hp with rfl | hp2
    · omega
    · have := ih p hp2
      omega

/-- Descending into a fresh vertex `t` strictly shrinks `dfsNeed`: the
new call's need plus the one unit of fuel spent is at most the old
need. -/
theorem dfsNeed_descend (g : List (Nat × List Nat))
    (hnd : (g.map Prod.fst).Nodup) (t : Nat) (rest vis : List Nat)
    (htv : t ∉ vis) :
    dfsNeed g (t :: vis) (adjOf g t) + 1 ≤ dfsNeed g vis (t :: rest) := by
  by_cases hk : ∃ adjt, (t, adjt) ∈ g
  · obtain ⟨adjt, hmem⟩ := hk
    have ha : adjOf g t = adjt := adjOf_eq_of_mem g hnd t adjt hmem
    have hr := restSum_cons_key g hnd t adjt vis htv hmem
    simp only [dfsNeed, ha, List.length_cons]
    omega
  · have hnk : ∀ p ∈ g, p.fst ≠ t := by
      intro p hp he
      exact hk ⟨p.snd, by rw [← he]; exact hp⟩
    have ha : adjOf g t = [] := adjOf_eq_nil_of_not_key g t hnk
    have hr := restSum_cons_not_key g t vis hnk
    simp only [dfsNeed, ha, List.length_nil, List.length_cons]
    omega

/-- `dfsFuel` dominates the need of the call `HasCycle` makes for any
start vertex. -/
theorem dfsNeed_top (g : List (Nat × List Nat)) (s : Nat) :
    dfsNeed g [] (adjOf g s) < dfsFuel g := by
  rcases adjOf_mem_or_nil g s with h | h
  · simp only [dfsNeed, dfsFuel, h, List.length_nil]
    omega
  · have h2 : 1 + (adjOf g s).length ≤ restSum g [] :=
      restSum_entry_le g (s, adjOf g s) h
    simp only [dfsNeed, dfsFuel]
    omega

/-- Appending one more edge to the end of a path. -/
theorem walk_snoc {g : List (Nat × List Nat)} {a b c : Nat}
    (w : Walk g a b) : c ∈ adjOf g b → Walk g a c := by
  induction w with
  | base h => intro e; exact Walk.step h (Walk.base e)
  | step h _ ih => intro e; exact Walk.step h (ih e)

/-- Unfolding a findable back edge one step: either the very next edge
closes it, or it stays findable after descending. -/
theorem findable_invert (g : List (Nat × List Nat)) (vis : List Nat)
    (t : Nat) (hf : Findable g vis t) :
    ∃ t2 ∈ adjOf g t, t2 ∈ t :: vis ∨ Findable g (t :: vis) t2 := by
  obtain ⟨u, w, hu⟩ := hf
  cases w with
  | base h => exact ⟨u, h, Or.inl hu⟩
  | step h w2 =>
    rename_i b
    exact ⟨b, h, Or.inr ⟨u, w2, List.mem_cons_of_mem _ hu⟩⟩

/-- A start vertex lying on a cycle supplies the witness the top-level
DFS call needs. -/
theorem walk_self_witness (g : List (Nat × List Nat)) (s : Nat)
    (w : Walk g s s) :
    ∃ t ∈ adjOf g s, t ∈ ([] : List Nat) ∨ Findable g [] t := by
  cases w with
  | base h =>
    exact ⟨s, h, Or.inr ⟨s, Walk.base h, List.mem_cons_self s []⟩⟩
  | step h w2 =>
    rename_i b
    exact ⟨b, h, Or.inr ⟨b, walk_snoc w2 h, List.mem_cons_self b []⟩⟩

/-- A vertex with an outgoing path is a key of the waits-for map. -/
theorem walk_start_key (g : List (Nat × List Nat)) (c u : Nat)
    (w : Walk g c u) : (c, adjOf g c) ∈ g := by
  have hne : adjOf g c ≠ [] := by
    cases w with
    | base h => intro h0; rw [h0] at h; exact List.not_mem_nil _ h
    | step h _ => intro h0; rw [h0] at h; exact List.not_mem_nil _ h
  rcases adjOf_mem_or_nil g c with h | h
  · exact absurd h hne
  · exact h

/-- DFS completeness: a call whose adjacency suffix contains a vertex
that is already on the path, or from which a back edge is findable,
returns a victim — provided the fuel exceeds the call's need. -/
theorem dfs_finds (g : List (Nat × List Nat))
    (hnd : (g.map Prod.fst).Nodup) :
    ∀ (fuel : Nat) (vis adj mgv : List Nat),
      dfsNeed g vis adj < fuel →
      (∃ t ∈ adj, t ∈ vis ∨ Findable g vis t) →
      ((dfsGo g fuel adj vis mgv).fst).isSome = true := by
  intro fuel
  induction fuel with
  | zero => intro vis adj mgv hlt _; omega
  | succ fuel ih =>
    intro vis adj mgv hlt hwit
    cases adj with
    | nil =>
      obtain ⟨t, ht, _⟩ := hwit
      cases ht
    | cons t0 rest =>
      by_cases hmem : t0 ∈ vis
      · simp [dfsGo, hmem]
      · have hdlt : dfsNeed g (t0 :: vis) (adjOf g t0) < fuel := by
          have := dfsNeed_descend g hnd t0 rest vis hmem
          omega
        rcases hd : dfsGo g fuel (adjOf g t0) (t0 :: vis) (t0 :: mgv)
          with ⟨o, mgv2⟩
        cases o with
        | some f => simp [dfsGo, hmem, hd]
        | none =>
          obtain ⟨t, ht, hprop⟩ := hwit
          rcases List.mem_cons.mp ht with rfl | htrest
          · rcases hprop with h1 | h2
            · exact absurd h1 hmem
            · have hwit2 := findable_invert g vis t h2
              have hsome := ih (t :: vis) (adjOf g t) (t :: mgv) hdlt hwit2
              rw [hd] at hsome
              simp at hsome
          · have hrlt : dfsNeed g vis rest < fuel := by
              simp only [dfsNeed, List.length_cons] at hlt ⊢
              omega
            have hrec := ih vis rest mgv2 hrlt ⟨t, htrest, hprop⟩
            simpa [dfsGo, hmem, hd] using hrec

/-- A DFS run that returns no victim never visits a vertex lying on a
cycle: everything it adds to `muilt_graph_visited` it found cycle-free. -/
theorem dfs_none_mgv (g : List (Nat × List Nat))
    (hnd : (g.map Prod.fst).Nodup) :
    ∀ (fuel : Nat) (vis adj mgv : List Nat),
      dfsNeed g vis adj < fuel →
      (dfsGo g fuel adj vis mgv).fst = none →
      ∀ x, Walk g x x → x ∈ (dfsGo g fuel adj vis mgv).snd → x ∈ mgv := by
  intro fuel
  induction fuel with
  | zero => intro vis adj mgv hlt; omega
  | succ fuel ih =>
    intro vis adj mgv hlt hnone x hx hxmem
    cases adj with
    | nil => simpa [dfsGo] using hxmem
    | cons t0 rest =>
      by_cases hmem : t0 ∈ vis
      · simp [dfsGo, hmem] at hnone
      · rcases hd : dfsGo g fuel (adjOf g t0) (t0 :: vis) (t0 :: mgv)
          with ⟨o, mgv2⟩
        cases o with
        | some f => simp [dfsGo, hmem, hd] at hnone
        | none =>
          have hdlt : dfsNeed g (t0 :: vis) (adjOf g t0) < fuel := by
            have := dfsNeed_descend g hnd t0 rest vis hmem
            omega
          have hrlt : dfsNeed g vis rest < fuel := by
            simp only [dfsNeed, List.length_cons] at hlt ⊢
            omega
          have hstep : dfsGo g (fuel + 1) (t0 :: rest) vis mgv
              = dfsGo g fuel rest vis mgv2 := by
            simp [dfsGo, hmem, hd]
          rw [hstep] at hnone hxmem
          have h1 := ih vis rest mgv2 hrlt hnone x hx hxmem
          have h2 := ih (t0 :: vis) (adjOf g t0) (t0 :: mgv) hdlt
            (by rw [hd]) x hx (by rw [hd]; exact h1)
          rcases List.mem_cons.mp h2 with rfl | hxm
          · exfalso
            have hwit := findable_invert g vis x
              ⟨x, hx, List.mem_cons_self x vis⟩
            have hsome := dfs_finds g hnd fuel (x :: vis) (adjOf g x)
              (x :: mgv) hdlt hwit
            rw [hd] at hsome
            simp at hsome
          · exact hxm

/-- Completeness of the `HasCycle` loop: if some not-yet-skipped start
in the remaining key list lies on a cycle, a victim is reported. -/
theorem hasCycleGo_finds (g : List (Nat × List Nat))
    (hnd : (g.map Prod.fst).Nodup) :
    ∀ (l : List (Nat × List Nat)) (mgv : List Nat),
      (∃ c adjc, (c, adjc) ∈ l ∧ Walk g c c ∧ c ∉ mgv) →
      (hasCycleGo g l mgv).isSome = true := by
  intro l
  induction l with
  | nil =>
    intro mgv h
    obtain ⟨c, adjc, hc, _, _⟩ := h
    cases hc
  | cons p rest ih =>
    intro mgv hwit
    obtain ⟨c, adjc, hcl, hw, hcm⟩ := hwit
    rcases p with ⟨s, a⟩
    by_cases hsm : s ∈ mgv
    · have hrest : (c, adjc) ∈ rest := by
        rcases List.mem_cons.mp hcl with he | h2
        · exfalso
          apply hcm
          have hcs2 : c = s := congrArg Prod.fst he
          rw [hcs2]
          exact hsm
        · exact h2
      simpa [hasCycleGo, hsm] using ih mgv ⟨c, adjc, hrest, hw, hcm⟩
    · rcases hd : dfsGo g (dfsFuel g) (adjOf g s) [] mgv with ⟨o, mgv2⟩
      cases o with
      | some f => simp [hasCycleGo, hsm, hd]
      | none =>
        have hcs : c ≠ s := by
          intro he
          have hwits := walk_self_witness g s (he ▸ hw)
          have hfind := dfs_finds g hnd (dfsFuel g) [] (adjOf g s) mgv
            (dfsNeed_top g s) hwits
          rw [hd] at hfind
          simp at hfind
        have hrest : (c, adjc) ∈ rest := by
          rcases List.mem_cons.mp hcl with he | h2
          · exact absurd (congrArg Prod.fst he : c = s) hcs
          · exact h2
        have hcm2 : c ∉ mgv2 := by
          intro hmem2
          exact hcm (dfs_none_mgv g hnd (dfsFuel g) [] (adjOf g s) mgv
            (dfsNeed_top g s) (by rw [hd]) c hw (by rw [hd]; exact hmem2))
        simpa [hasCycleGo, hsm, hd] using ih mgv2 ⟨c, adjc, hrest, hw, hcm2⟩

/-- Unfolding equation for `IsChain` on two or more entries. -/
theorem isChain_cons_cons (g : List (Nat × List Nat)) (b a : Nat)
    (rest : List Nat) :
    IsChain g (b :: a :: rest) ↔ b ∈ adjOf g a ∧ IsChain g (a :: rest) :=
  Iff.rfl

/-- Soundness of the reported victim: whenever `dfsGo` reports one, the
victim is the maximum of a nonempty chain (the DFS path at discovery)
with a back edge from its newest vertex to one of its members. -/
theorem dfsGo_some_path (g : List (Nat × List Nat)) :
    ∀ (fuel : Nat) (adj vis mgv : List Nat) (cur v : Nat)
      (mgv2 : List Nat),
      dfsGo g fuel adj vis mgv = (some v, mgv2) →
      (∀ x ∈ adj, x ∈ adjOf g cur) →
      (vis = [] ∨ ∃ t, vis = cur :: t) →
      IsChain g vis →
      ∃ vis2 tgt, vis2 ≠ [] ∧ IsChain g vis2 ∧ tgt ∈ vis2 ∧
        tgt ∈ adjOf g (vis2.headD 0) ∧ v = listMax vis2 := by
  intro fuel
  induction fuel with
  | zero =>
    intro adj vis mgv cur v mgv2 heq
    simp [dfsGo] at heq
  | succ fuel ih =>
    intro adj vis mgv cur v mgv2 heq hsub hhead hchain
    cases adj with
    | nil => simp [dfsGo] at heq
    | cons t0 rest =>
      by_cases hmem : t0 ∈ vis
      · simp only [dfsGo, if_pos hmem, Prod.mk.injEq,
          Option.some.injEq] at heq
        obtain ⟨hv, -⟩ := heq
        have hne : vis ≠ [] := by
          intro h0
          rw [h0] at hmem
          exact List.not_mem_nil _ hmem
        obtain ⟨t, ht⟩ : ∃ t, vis = cur :: t := by
          rcases hhead with h0 | h1
          · exact absurd h0 hne
          · exact h1
        refine ⟨vis, t0, hne, hchain, hmem, ?_, hv.symm⟩
        rw [ht]
        simpa using hsub t0 (List.mem_cons_self t0 rest)
      · rcases hd : dfsGo g fuel (adjOf g t0) (t0 :: vis) (t0 :: mgv)
          with ⟨o, mgvd⟩
        cases o with
        | some f =>
          have hstep : dfsGo g (fuel + 1) (t0 :: rest) vis mgv
              = (some f, mgvd) := by
            simp [dfsGo, hmem, hd]
          rw [hstep] at heq
          simp only [Prod.mk.injEq, Option.some.injEq] at heq
          obtain ⟨rfl, rfl⟩ := heq
          have hchain2 : IsChain g (t0 :: vis) := by
            rcases hhead with h0 | ⟨t, ht⟩
            · rw [h0]
              trivial
            · rw [ht]
              exact (isChain_cons_cons g t0 cur t).mpr
                ⟨hsub t0 (List.mem_cons_self t0 rest), ht ▸ hchain⟩
          exact ih (adjOf g t0) (t0 :: vis) (t0 :: mgv) t0 f mgvd hd
            (fun x hx => hx) (Or.inr ⟨vis, rfl⟩) hchain2
        | none =>
          have hstep : dfsGo g (fuel + 1) (t0 :: rest) vis mgv
              = dfsGo g fuel rest vis mgvd := by
            simp [dfsGo, hmem, hd]
          rw [hstep] at heq
          exact ih rest vis mgvd cur v mgv2 heq
            (fun x hx => hsub x (List.mem_cons_of_mem t0 hx)) hhead hchain

/-- Soundness of the victim at the level of the `HasCycle` loop. -/
theorem hasCycleGo_some_path (g : List (Nat × List Nat)) :
    ∀ (l : List (Nat × List Nat)) (mgv : List Nat) (v : Nat),
      hasCycleGo g l mgv = some v →
      ∃ vis2 tgt, vis2 ≠ [] ∧ IsChain g vis2 ∧ tgt ∈ vis2 ∧
        tgt ∈ adjOf g (vis2.headD 0) ∧ v = listMax vis2 := by
  intro l
  induction l with
  | nil =>
    intro mgv v h
    simp [hasCycleGo] at h
  | cons p rest ih =>
    intro mgv v h
    rcases p with ⟨s, a⟩
    by_cases hsm : s ∈ mgv
    · have hstep : hasCycleGo g ((s, a) :: rest) mgv
          = hasCycleGo g rest mgv := by
        simp [hasCycleGo, hsm]
      rw [hstep] at h
      exact ih mgv v h
    · rcases hd : dfsGo g (dfsFuel g) (adjOf g s) [] mgv with ⟨o, mgvd⟩
      cases o with
      | some f =>
        have hstep : hasCycleGo g ((s, a) :: rest) mgv = some f := by
          simp [hasCycleGo, hsm, hd]
        rw [hstep] at h
        have hfv : f = v := by simpa using h
        subst hfv
        exact dfsGo_some_path g (dfsFuel g) (adjOf g s) [] mgv s f mgvd hd
          (fun x hx => hx) (Or.inl rfl) trivial
      | none =>
        have hstep : hasCycleGo g ((s, a) :: rest) mgv
            = hasCycleGo g rest mgvd := by
          simp [hasCycleGo, hsm, hd]
        rw [hstep] at h
        exact ih mgvd v h

/-- C6 (amended): for every waits-for graph with distinct keys (as the
C++ `std::map` guarantees) that contains a cycle — some transaction has
a nonempty waits-for path back to itself — `HasCycle` returns true.
Whenever it reports a victim `v`, there is a nonempty chain (the DFS
`visited` path at the moment the back edge is discovered) with a
waits-for edge from its newest vertex back to one of its members, and
`v` is the largest transaction id on that chain — not in general the
largest id of the discovered cycle.  In particular, for the
two-transaction cycle where `a` waits on `b` and `b` waits on `a`
(`a < b`), the reported victim is `max a b = b`. -/
theorem hasCycle_detects_cycles :
    (∀ g : List (Nat × List Nat), (g.map Prod.fst).Nodup →
        (∃ c, Walk g c c) → (hasCycle g).isSome = true) ∧
    (∀ (g : List (Nat × List Nat)) (v : Nat), hasCycle g = some v →
        ∃ vis tgt, vis ≠ [] ∧ IsChain g vis ∧ tgt ∈ vis ∧
          tgt ∈ adjOf g (vis.headD 0) ∧ v = listMax vis) ∧
    (∀ a b : Nat, a < b → hasCycle [(a, [b]), (b, [a])] = some b) := by
  refine ⟨?_, ?_, ?_⟩
  · rintro g hnd ⟨c, hw⟩
    exact hasCycleGo_finds g hnd g []
      ⟨c, adjOf g c, walk_start_key g c c hw, hw, List.not_mem_nil c⟩
  · intro g v h
    exact hasCycleGo_some_path g g [] v h
  · intro a b h
    have hne : a ≠ b := Nat.ne_of_lt h
    have hne' : b ≠ a := hne.symm
    have hab : (a == b) = false := by simp [hne]
    have hba : (b == a) = false := by simp [hne']
    simp [hasCycle, hasCycleGo, dfsGo, dfsFuel, restSum, adjOf, listMax,
      hne, hne', hab, hba, Nat.max_eq_right h.le]

/-- Witness for C6: the two-transaction cycle `1 ⇄ 2` instantiates all
three parts — detection, the victim characterisation, and the reported
victim `max 1 2 = 2`. -/
theorem hasCycle_detects_cycles_witness :
    (hasCycle [(1, [2]), (2, [1])]).isSome = true ∧
    hasCycle [(1, [2]), (2, [1])] = some 2 ∧
    (∃ vis tgt, vis ≠ [] ∧ IsChain [(1, [2]), (2, [1])] vis ∧
      tgt ∈ vis ∧ tgt ∈ adjOf [(1, [2]), (2, [1])] (vis.headD 0) ∧
      2 = listMax vis) := by
  have h1 : 2 ∈ adjOf [(1, [2]), (2, [1])] 1 := by decide
  have h2 : 1 ∈ adjOf [(1, [2]), (2, [1])] 2 := by decide
  have hw : Walk [(1, [2]), (2, [1])] 1 1 :=
    Walk.step h1 (Walk.base h2)
  refine ⟨?_, ?_, ?_⟩
  · exact hasCycle_detects_cycles.1 [(1, [2]), (2, [1])] (by decide)
      ⟨1, hw⟩
  · exact hasCycle_detects_cycles.2.2 1 2 (by decide)
  · exact hasCycle_detects_cycles.2.1 [(1, [2]), (2, [1])] 2
      (hasCycle_detects_cycles.2.2 1 2 (by decide))

/-- C4: `can_grant(queue, mode, txn_id)` holds iff the request is at the
head of the queue (the head request carries `txn_id`) or the mode is
SHARED and no request anywhere in the queue is EXCLUSIVE; and in the
queue `[A(S,granted), B(X,waiting), C(S,waiting)]` the grant predicate
is false for C while B's exclusive request is still queued, so C is
never granted before B. -/
theorem canGrantLock_spec :
    (∀ (queue : List LockRequest) (mode : LockMode) (txn_id : Nat),
      queue ≠ [] →
      (CanGrantLock queue mode txn_id = true ↔
        (queue.head?.map LockRequest.txn_id = some txn_id ∨
         (mode = LockMode.SHARED ∧
          ∀ req ∈ queue, req.lock_mode ≠ LockMode.EXCLUSIVE)))) ∧
    CanGrantLock
      [⟨1, LockMode.SHARED, true⟩, ⟨2, LockMode.EXCLUSIVE, false⟩,
       ⟨3, LockMode.SHARED, false⟩] LockMode.SHARED 3 = false := by
  constructor
  · intro queue mode txn_id hne
    match queue with
    | [] => exact absurd rfl hne
    | front :: rest =>
      simp only [CanGrantLock, List.head?, Option.map_some]
      by_cases hfront : front.txn_id = txn_id
      · simp [hfront]
      · simp only [if_neg hfront]
        by_cases hmode : mode = LockMode.SHARED
        · simp only [if_pos hmode, hmode]
          simp [List.all_eq_true, hfront]
        · simp [if_neg hmode, hmode, Option.some_inj, hfront]
  · decide

/-- Witness for C4 at a concrete queue. -/
theorem canGrantLock_spec_witness :
    CanGrantLock [⟨1, LockMode.SHARED, true⟩] LockMode.SHARED 1 = true ↔
      (([⟨1, LockMode.SHARED, true⟩] :
          List LockRequest).head?.map LockRequest.txn_id = some 1 ∨
       (LockMode.SHARED = LockMode.SHARED ∧
        ∀ req ∈ [(⟨1, LockMode.SHARED, true⟩ : LockRequest)],
          req.lock_mode ≠ LockMode.EXCLUSIVE)) :=
  canGrantLock_spec.1 [⟨1, LockMode.SHARED, true⟩] LockMode.SHARED 1
    (by decide)

/-- C5 counterexample: under READ_COMMITTED, a transaction in the
SHRINKING state calling `LockExclusive` is aborted with
`LOCK_ON_SHRINKING` (the SHRINKING gate in `LockExclusive` is checked
for every isolation level), refuting "under READ_COMMITTED lock
acquisition (shared or exclusive) is permitted in every transaction
state". -/
theorem lockExclusive_rc_shrinking_aborts :
    lockExclusiveStep
      ⟨7, IsolationLevel.READ_COMMITTED, TransactionState.SHRINKING, [], []⟩ 0 =
      LockOutcome.aborted AbortReason.LOCK_ON_SHRINKING := by decide

/-- C5 (amended): `lock_shared` under READ_UNCOMMITTED always aborts
with `LOCKSHARED_ON_READ_UNCOMMITTED`; under REPEATABLE_READ both lock
acquisitions abort with `LOCK_ON_SHRINKING` while the transaction is
SHRINKING; under READ_COMMITTED `lock_shared` is permitted in every
state, and `lock_exclusive` is permitted in every state except
SHRINKING, where it aborts with `LOCK_ON_SHRINKING`. -/
theorem lockGates_by_isolation (txn : Txn) (rid : Nat) :
    (txn.iso = IsolationLevel.READ_UNCOMMITTED →
      lockSharedStep txn rid =
        LockOutcome.aborted AbortReason.LOCKSHARED_ON_READ_UNCOMMITTED) ∧
    (txn.iso = IsolationLevel.REPEATABLE_READ →
      txn.state = TransactionState.SHRINKING →
      lockSharedStep txn rid =
          LockOutcome.aborted AbortReason.LOCK_ON_SHRINKING ∧
      lockExclusiveStep txn rid =
          LockOutcome.aborted AbortReason.LOCK_ON_SHRINKING) ∧
    (txn.iso = IsolationLevel.READ_COMMITTED →
      (∀ r, lockSharedStep txn rid ≠ LockOutcome.aborted r) ∧
      (txn.state ≠ TransactionState.SHRINKING →
        ∀ r, lockExclusiveStep txn rid ≠ LockOutcome.aborted r) ∧
      (txn.state = TransactionState.SHRINKING →
        lockExclusiveStep txn rid =
          LockOutcome.aborted AbortReason.LOCK_ON_SHRINKING)) := by
  refine ⟨?_, ?_, ?_⟩
  · intro h
    simp [lockSharedStep, h]
  · intro h1 h2
    exact ⟨by simp [lockSharedStep, h1, h2], by simp [lockExclusiveStep, h2]⟩
  · intro h
    refine ⟨?_, ?_, ?_⟩
    · intro r
      by_cases hm : rid ∈ txn.sharedSet ∨ rid ∈ txn.exclusiveSet
      · simp [lockSharedStep, h, hm]
      · simp [lockSharedStep, h, hm]
    · intro hst r
      by_cases hm : rid ∈ txn.exclusiveSet
      · simp [lockExclusiveStep, hst, hm]
      · simp [lockExclusiveStep, hst, hm]
    · intro hst
      simp [lockExclusiveStep, hst]

/-- Witness for C5 at concrete transactions. -/
theorem lockGates_by_isolation_witness :
    lockSharedStep
      ⟨1, IsolationLevel.READ_UNCOMMITTED, TransactionState.GROWING, [], []⟩ 5 =
      LockOutcome.aborted AbortReason.LOCKSHARED_ON_READ_UNCOMMITTED :=
  (lockGates_by_isolation
    ⟨1, IsolationLevel.READ_UNCOMMITTED, TransactionState.GROWING, [], []⟩ 5).1
    rfl

/-- C7 counterexample: a REPEATABLE_READ transaction in SHRINKING that
already holds a shared lock on rid 9 and calls `lock_shared` again on
rid 9 is aborted with `LOCK_ON_SHRINKING` (the gate precedes the
recursive-lock check), refuting "for every transaction state and
isolation level ... returns true". -/
theorem lockShared_idempotence_fails_when_shrinking :
    (9 : Nat) ∈
        (⟨3, IsolationLevel.REPEATABLE_READ, TransactionState.SHRINKING,
          [9], []⟩ : Txn).sharedSet ∧
    lockSharedStep
      ⟨3, IsolationLevel.REPEATABLE_READ, TransactionState.SHRINKING, [9], []⟩ 9 =
      LockOutcome.aborted AbortReason.LOCK_ON_SHRINKING := by decide

/-- C7 (amended): whenever the isolation-level gates admit the call (for
`lock_shared`: the level is not READ_UNCOMMITTED and not REPEATABLE_READ
in SHRINKING; for `lock_exclusive`: the state is not SHRINKING), a
second lock by a transaction already holding the lock returns true
immediately and enqueues no new request. -/
theorem lock_idempotent (txn : Txn) (rid : Nat) :
    (txn.iso ≠ IsolationLevel.READ_UNCOMMITTED →
      ¬(txn.iso = IsolationLevel.REPEATABLE_READ ∧
        txn.state = TransactionState.SHRINKING) →
      rid ∈ txn.sharedSet ∨ rid ∈ txn.exclusiveSet →
      lockSharedStep txn rid = LockOutcome.grantedImmediately) ∧
    (txn.state ≠ TransactionState.SHRINKING →
      rid ∈ txn.exclusiveSet →
      lockExclusiveStep txn rid = LockOutcome.grantedImmediately) := by
  constructor
  · intro hru hrr hmem
    simp [lockSharedStep, hru, hrr, hmem]
  · intro hst hmem
    simp [lockExclusiveStep, hst, hmem]

/-- Witness for C7 at a concrete transaction. -/
theorem lock_idempotent_witness :
    lockSharedStep
      ⟨4, IsolationLevel.REPEATABLE_READ, TransactionState.GROWING, [9], []⟩ 9 =
      LockOutcome.grantedImmediately :=
  (lock_idempotent
    ⟨4, IsolationLevel.REPEATABLE_READ, TransactionState.GROWING, [9], []⟩ 9).1
    (by decide) (by decide) (Or.inl (by decide))

/-- Helper: `Unlock` on a queue whose head does not belong to the
transaction behaves like `Unlock` on the tail, with the head put back in
front of the resulting queue. -/
theorem unlock_skip_head (txn : Txn) (rid : Nat) (front : LockRequest)
    (rest : List LockRequest) (h : front.txn_id ≠ txn.id) :
    unlock txn rid (front :: rest) =
      (unlock txn rid rest).map (fun r => (r.1, r.2.1, front :: r.2.2)) := by
  have hb : ¬((fun req => req.txn_id == txn.id) front = true) := by
    simpa using h
  have hfind : (front :: rest).find? (fun req => req.txn_id == txn.id) =
      rest.find? (fun req => req.txn_id == txn.id) :=
    List.find?_cons_of_neg _ hb
  have herase : (front :: rest).eraseP (fun req => req.txn_id == txn.id) =
      front :: rest.eraseP (fun req => req.txn_id == txn.id) :=
    List.eraseP_cons_of_neg hb
  by_cases hf :
      (rest.find? fun req => req.txn_id == txn.id).isSome = true
  · simp only [unlock, hfind, herase, hf, if_true, Option.map_some]
    split <;> rfl
  · simp only [unlock, hfind, herase]
    simp [hf]

/-- C10: when the transaction has a request in the rid's queue, `Unlock`
returns true (never false), erases exactly the first request carrying
the transaction's id, and removes the rid from both lock sets, at every
isolation level (only REPEATABLE_READ additionally moves GROWING to
SHRINKING); when it has none, the `assert(iter != end())` fires, i.e.
the error branch is unreachable under the stated precondition. -/
theorem unlock_spec (txn : Txn) (rid : Nat) (queue : List LockRequest) :
    ((∃ req ∈ queue, req.txn_id = txn.id) →
      ∃ l₁ req l₂,
        queue = l₁ ++ req :: l₂ ∧ req.txn_id = txn.id ∧
        (∀ r ∈ l₁, r.txn_id ≠ txn.id) ∧
        unlock txn rid queue =
          some (true,
            { txn with
              state :=
                if txn.iso = IsolationLevel.REPEATABLE_READ ∧
                    txn.state = TransactionState.GROWING then
                  TransactionState.SHRINKING
                else txn.state,
              sharedSet := txn.sharedSet.erase rid,
              exclusiveSet := txn.exclusiveSet.erase rid },
            l₁ ++ l₂)) ∧
    ((∀ req ∈ queue, req.txn_id ≠ txn.id) → unlock txn rid queue = none) := by
  constructor
  · intro hex
    induction queue with
    | nil => simp at hex
    | cons front rest ih =>
      by_cases hfront : front.txn_id = txn.id
      · refine ⟨[], front, rest, by simp, hfront, by simp, ?_⟩
        have hb : (fun req => req.txn_id == txn.id) front = true := by
          simpa using hfront
        have hfind : (front :: rest).find?
            (fun req => req.txn_id == txn.id) = some front :=
          List.find?_cons_of_pos _ hb
        have herase : (front :: rest).eraseP
            (fun req => req.txn_id == txn.id) = rest :=
          List.eraseP_cons_of_pos hb
        simp only [unlock, hfind, herase, Option.isSome_some, if_true,
          List.nil_append]
        split <;> rfl
      · obtain ⟨req₀, hreq₀, hid₀⟩ := hex
        rcases List.mem_cons.mp hreq₀ with h | h
        · exact absurd (h ▸ hid₀) hfront
        · obtain ⟨l₁, req, l₂, hq, hid, hskip, hres⟩ := ih ⟨req₀, h, hid₀⟩
          refine ⟨front :: l₁, req, l₂, by simp [hq], hid, ?_, ?_⟩
          · intro r hr
            rcases List.mem_cons.mp hr with h' | h'
            · exact h' ▸ hfront
            · exact hskip r h'
          · rw [unlock_skip_head txn rid front rest hfront, hres]
            simp
  · intro hall
    have hnone : queue.find? (fun req => req.txn_id == txn.id) = none := by
      rw [List.find?_eq_none]
      intro r hr
      simpa using hall r hr
    simp [unlock, hnone]

/-! ## Theorems about the buffer pool manager -/

/-- Helper: reading back a frame just written (in-range). -/
theorem getFrame_setFrame_self (bpm : BPM) (f : Nat) (fr : Frame)
    (h : f < bpm.frames.length) : getFrame (setFrame bpm f fr) f = fr := by
  simp [getFrame, setFrame, List.getD_eq_getElem?_getD,
    List.getElem?_set_self h]

/-- Helper: membership in the replacer after `LRUReplacer::Unpin`. -/
theorem mem_lruUnpin_self (l : List Nat) (cap f : Nat) :
    f ∈ lruUnpin l cap f ↔ (f ∈ l ∨ l.length < cap) := by
  unfold lruUnpin
  by_cases hmem : f ∈ l
  · simp [hmem]
  · by_cases hcap : l.length < cap
    · simp [hmem, hcap]
    · simp [hmem, hcap]

/-- C8 counterexample: on a resident page whose frame has pin count 0
and a clean dirty bit, `unpin_page(p, true)` returns false but the
frame's dirty bit has been or-folded to true — the frame is *not* left
unchanged. -/
theorem unpinPage_pin0_still_folds_dirty :
    (unpinPage ⟨[⟨some 1, 0, false, 5⟩], [(1, 0)], [], [0], 1, ⟨[], 2, []⟩⟩
        1 true).1 = false ∧
    getFrame
      (unpinPage ⟨[⟨some 1, 0, false, 5⟩], [(1, 0)], [], [0], 1, ⟨[], 2, []⟩⟩
        1 true).2 0 = ⟨some 1, 0, true, 5⟩ ∧
    (unpinPage ⟨[⟨some 1, 0, false, 5⟩], [(1, 0)], [], [0], 1, ⟨[], 2, []⟩⟩
        1 true).2 ≠
      ⟨[⟨some 1, 0, false, 5⟩], [(1, 0)], [], [0], 1, ⟨[], 2, []⟩⟩ := by
  refine ⟨rfl, rfl, ?_⟩
  decide

/-- C8 (amended): `unpin_page(page_id, is_dirty)` on a resident page
first or-folds `is_dirty` into the frame's dirty bit; if the pin count
is already 0 it then reports failure (returns false), leaving pin
count, page table and replacer unchanged but keeping the or-folded
dirty bit; otherwise it returns true, decrements the pin count, leaves
the page table unchanged, and the frame joins the replacer exactly on
the 1→0 pin transition (subject to the replacer's capacity and
idempotence rules). -/
theorem unpinPage_spec (bpm : BPM) (pid f : Nat) (d : Bool)
    (hf : assocFind bpm.pageTable pid = some f)
    (hlen : f < bpm.frames.length) :
    ((getFrame bpm f).pinCount = 0 →
      unpinPage bpm pid d =
        (false,
         setFrame bpm f
           { getFrame bpm f with dirty := (getFrame bpm f).dirty || d })) ∧
    ((getFrame bpm f).pinCount ≠ 0 →
      (unpinPage bpm pid d).1 = true ∧
      getFrame (unpinPage bpm pid d).2 f =
        { getFrame bpm f with
          dirty := (getFrame bpm f).dirty || d,
          pinCount := (getFrame bpm f).pinCount - 1 } ∧
      (unpinPage bpm pid d).2.pageTable = bpm.pageTable ∧
      (f ∈ (unpinPage bpm pid d).2.replacerList ↔
        (if (getFrame bpm f).pinCount = 1 then
          f ∈ bpm.replacerList ∨ bpm.replacerList.length < bpm.replacerCap
        else f ∈ bpm.replacerList))) := by
  set F := getFrame bpm f with hF
  set fr1 : Frame := { F with dirty := F.dirty || d } with hfr1
  have hstep : unpinPage bpm pid d = unpinPageByFrameId (setFrame bpm f fr1) f := by
    simp only [unpinPage]
    rw [hf]
  have hget : getFrame (setFrame bpm f fr1) f = fr1 :=
    getFrame_setFrame_self bpm f fr1 hlen
  have hlen1 : f < (setFrame bpm f fr1).frames.length := by
    simpa [setFrame] using hlen
  constructor
  · intro h0
    have hbr : unpinPageByFrameId (setFrame bpm f fr1) f =
        (false, setFrame bpm f fr1) := by
      simp only [unpinPageByFrameId, hget]
      simp [h0]
    rw [hstep, hbr]
  · intro hne
    by_cases h1 : F.pinCount = 1
    · have hbr : unpinPageByFrameId (setFrame bpm f fr1) f =
          (true, { setFrame (setFrame bpm f fr1) f
              { fr1 with pinCount := fr1.pinCount - 1 } with
            replacerList := lruUnpin bpm.replacerList bpm.replacerCap f }) := by
        simp only [unpinPageByFrameId, hget]
        simp [setFrame, hne, h1]
      rw [hstep, hbr]
      refine ⟨rfl, ?_, rfl, ?_⟩
      · have h2 := getFrame_setFrame_self (setFrame bpm f fr1) f
          { fr1 with pinCount := fr1.pinCount - 1 } hlen1
        simpa [getFrame, setFrame] using h2
      · simp only [h1, if_true]
        simpa using mem_lruUnpin_self bpm.replacerList bpm.replacerCap f
    · have hne1 : F.pinCount - 1 ≠ 0 := by omega
      have hbr : unpinPageByFrameId (setFrame bpm f fr1) f =
          (true, setFrame (setFrame bpm f fr1) f
            { fr1 with pinCount := fr1.pinCount - 1 }) := by
        simp only [unpinPageByFrameId, hget]
        simp [hne, hne1]
      rw [hstep, hbr]
      refine ⟨rfl, ?_, rfl, ?_⟩
      · have h2 := getFrame_setFrame_self (setFrame bpm f fr1) f
          { fr1 with pinCount := fr1.pinCount - 1 } hlen1
        simpa [getFrame, setFrame] using h2
      · simp [h1, setFrame]

/-- C9: with the free list empty and no unpinned frame, `fetch_page`
of a non-resident page and `new_page` both return none; whenever the
replacer yields a dirty victim, the victim's contents are written to
disk (the write is appended to the disk log) before the frame is
reused; and the literal pool-of-two scenario: pages 1, 2 pinned, fetch
of page 3 fails; after `unpin(1, dirty)` fetch of page 3 succeeds in
page 1's frame, and the disk saw `write 1 77` before `read 3`. -/
theorem bufferPool_exhaustion_and_dirty_writeback :
    (∀ bpm : BPM, bpm.freeList = [] → bpm.replacerList = [] →
      allocateFrame bpm = none ∧
      (∀ pid, assocFind bpm.pageTable pid = none → fetchPage bpm pid = none) ∧
      newPage bpm = none) ∧
    (∀ (bpm : BPM) (f : Nat) (rl : List Nat),
      bpm.freeList = [] → lruVictim bpm.replacerList = some (f, rl) →
      (getFrame bpm f).dirty = true →
      (allocateFrame bpm).map Prod.fst = some f ∧
      (allocateFrame bpm).map (fun r => r.2.disk.eventLog) =
        some (bpm.disk.eventLog ++
          [DiskEvent.write ((getFrame bpm f).pageId.getD 0)
            ((getFrame bpm f).data)])) ∧
    ((newPage demoBPM0).map (fun r => (r.1, r.2.1)) = some (1, 0) ∧
     (newPage demoBPM1).map (fun r => (r.1, r.2.1)) = some (2, 1) ∧
     fetchPage demoBPM3 3 = none ∧
     (unpinPage demoBPM3 1 true).1 = true ∧
     (fetchPage demoBPM4 3).map Prod.fst = some 0 ∧
     (fetchPage demoBPM4 3).map (fun r => r.2.disk.eventLog) =
       some [DiskEvent.write 1 77, DiskEvent.read 3] ∧
     (fetchPage demoBPM4 3).map (fun r => assocFind r.2.disk.store 1) =
       some (some 77)) := by
  refine ⟨?_, ?_, ?_⟩
  · intro bpm h1 h2
    refine ⟨?_, ?_, ?_⟩
    · simp [allocateFrame, h1, h2, lruVictim]
    · intro pid hpid
      simp [fetchPage, hpid, allocateFrame, h1, h2, lruVictim]
    · simp [newPage, allocateFrame, h1, h2, lruVictim]
  · intro bpm f rl h1 h2 h3
    have h3' : (bpm.frames[f]?.getD Frame.init).dirty = true := by
      simpa [getFrame, List.getD_eq_getElem?_getD] using h3
    constructor
    · simp [allocateFrame, getFrame, h1, h2, h3', setFrame,
        DiskManager.writePage]
    · simp [allocateFrame, getFrame, h1, h2, h3', setFrame,
        DiskManager.writePage]
  · exact ⟨rfl, rfl, rfl, rfl, rfl, rfl, rfl⟩

/-- Witness for C9 at a concrete exhausted pool and a concrete dirty
victim. -/
theorem bufferPool_exhaustion_witness :
    allocateFrame (BPM.init 0) = none ∧
    (allocateFrame
        ⟨[⟨some 4, 0, true, 11⟩], [(4, 0)], [], [0], 1, ⟨[], 2, []⟩⟩).map
        (fun r => r.2.disk.eventLog) =
      some (([] : List DiskEvent) ++ [DiskEvent.write 4 11]) :=
  ⟨(bufferPool_exhaustion_and_dirty_writeback.1 (BPM.init 0) rfl rfl).1,
   (bufferPool_exhaustion_and_dirty_writeback.2.1
      ⟨[⟨some 4, 0, true, 11⟩], [(4, 0)], [], [0], 1, ⟨[], 2, []⟩⟩ 0 []
      rfl rfl rfl).2⟩

/-- Witness for C8 (amended) at a concrete pool. -/
theorem unpinPage_spec_witness :
    (unpinPage ⟨[⟨some 4, 2, false, 9⟩], [(4, 0)], [], [], 1, ⟨[], 2, []⟩⟩
        4 true).1 = true := by
  have h := (unpinPage_spec
    ⟨[⟨some 4, 2, false, 9⟩], [(4, 0)], [], [], 1, ⟨[], 2, []⟩⟩ 4 0 true
    (by decide) (by decide)).2 (by decide)
  exact h.1

/-! ## Theorems about the B+ tree -/

/-- C1 (code-bug evidence): on the quiescent single-leaf tree built by
`insert 1; insert 2; remove 2` (leaf max_size 4), key 2 is absent
(`get_value` misses), yet `insert(2, 99)` returns **false** and leaves
the tree unchanged — the stale slot `(2, 20)` left just past `size` by
the removal makes the unguarded `array[id]` read in leaf `Insert`
report a duplicate.  The present-key half behaves as specified: on the
tree where 2 is present, `insert(2, 99)` returns false and leaves the
tree unchanged, and a genuinely fresh key (5) inserts fine. -/
theorem insert_after_remove_falsely_reports_duplicate :
    getValue bugT3 2 = some none ∧
    treeInsert bugT3 2 99 = some (false, bugT3) ∧
    (treeInsert bugT3 2 99).map (fun r => getValue r.2 2) =
      some (some none) ∧
    getValue bugT2 2 = some (some 20) ∧
    treeInsert bugT2 2 99 = some (false, bugT2) ∧
    (treeInsert bugT2 5 50).map Prod.fst = some true ∧
    (treeInsert bugT2 5 50).map (fun r => getValue r.2 5) =
      some (some (some 50)) :=
  ⟨rfl, rfl, rfl, rfl, rfl, rfl, rfl⟩

/-- C2 counterexample: in the leaf-max-4 tree holding leaves
`[0,1,2] | [3,4]` under separator 3, removing 3 is *not* structurally
inert: the right leaf (size 1) underflows below min_size 2 and borrows
key 2 from its left sibling, leaving leaves `[0,1] | [2,4]` and parent
separator 2 — the left leaf no longer holds `[0,1,2]`. -/
theorem remove3_redistributes :
    (getPage demoT6.store 1).map Node.keys = some [0, 1] ∧
    (getPage demoT6.store 2).map Node.keys = some [2, 4] ∧
    (getPage demoT6.store 3).map (fun n => n.keys.drop 1) = some [2] ∧
    (getPage demoT6.store 1).map Node.keys ≠ some [0, 1, 2] := by
  refine ⟨rfl, rfl, rfl, ?_⟩
  decide

/-- C2 (amended): with leaf max_size 4, inserting 1,2,3,4 splits the
leaf — the root becomes internal with single separator 3 over leaves
`[1,2] | [3,4]`; inserting 0 grows the left leaf to `[0,1,2]` with no
further structural change; removing 3 underflows the right leaf (size
1 < min_size 2) and **redistributes**, borrowing key 2 from the left
sibling (leaves `[0,1] | [2,4]`, separator 2); removing 4 underflows
again, the right leaf merges into its left sibling, and the root
shrinks and is promoted to the single leaf `[0,1,2]`. -/
theorem btree_scenario_leaf_max4 :
    demoT3.root = some 1 ∧
    (getPage demoT3.store 1).map Node.keys = some [1, 2, 3] ∧
    demoT4.root = some 3 ∧
    (getPage demoT4.store 3).map Node.childIds = some [1, 2] ∧
    (getPage demoT4.store 3).map (fun n => n.keys.drop 1) = some [3] ∧
    (getPage demoT4.store 1).map Node.keys = some [1, 2] ∧
    (getPage demoT4.store 2).map Node.keys = some [3, 4] ∧
    demoT5.root = some 3 ∧
    (getPage demoT5.store 1).map Node.keys = some [0, 1, 2] ∧
    (getPage demoT5.store 2).map Node.keys = some [3, 4] ∧
    (getPage demoT6.store 1).map Node.keys = some [0, 1] ∧
    (getPage demoT6.store 2).map Node.keys = some [2, 4] ∧
    (getPage demoT6.store 3).map (fun n => n.keys.drop 1) = some [2] ∧
    demoT6.root = some 3 ∧
    demoT7.root = some 1 ∧
    (getPage demoT7.store 1).map Node.keys = some [0, 1, 2] ∧
    (getPage demoT7.store 1).map Node.parent = some none ∧
    getValue demoT7 0 = some (some 0) ∧
    getValue demoT7 1 = some (some 10) ∧
    getValue demoT7 2 = some (some 20) :=
  ⟨rfl, rfl, rfl, rfl, rfl, rfl, rfl, rfl, rfl, rfl, rfl, rfl, rfl, rfl,
   rfl, rfl, rfl, rfl, rfl, rfl⟩

/-- Helper: a successful descent path is never empty. -/
theorem descendPath_ne_nil (t : BTree) (fuel pid key : Nat) (lm : Bool) :
    descendPath t fuel pid key lm ≠ some [] := by
  cases fuel with
  | zero => simp [descendPath]
  | succ fuel =>
    cases hpg : getPage t.store pid with
    | none => simp [descendPath, hpg]
    | some node =>
      cases node with
      | leaf l => simp [descendPath, hpg]
      | internal n =>
        cases hrest : descendPath t fuel
            (if lm then n.valueAt 0 else n.lookup key) key lm <;>
          simp [descendPath, hpg, hrest]

/-- Helper: the insert descent computes the leaf at the end of the
descent path, and its page set is the crabbing fold of the
`size < max_size − 2` gate along that path. -/
theorem findLeafCrab_insert_eq (t : BTree) (key : Nat) (lm : Bool) :
    ∀ (fuel pid : Nat) (held : List Nat),
      findLeafCrab t fuel pid key lm IndexOpType.insert held =
        (descendPath t fuel pid key lm).map
          (fun path => (((path.getLast?).map Prod.fst).getD pid,
            crabHeld insertSafeNode path held)) := by
  intro fuel
  induction fuel with
  | zero => intro pid held; rfl
  | succ fuel ih =>
    intro pid held
    cases hpg : getPage t.store pid with
    | none => simp [findLeafCrab, descendPath, hpg]
    | some node =>
      cases node with
      | leaf l =>
        simp [findLeafCrab, descendPath, hpg, crabHeld, insertSafeNode]
      | internal n =>
        have hih := ih (if lm then n.valueAt 0 else n.lookup key)
          ((if (Node.internal n).size < (Node.internal n).maxSize - 2 then
            [] else held) ++ [pid])
        cases hrest : descendPath t fuel
            (if lm then n.valueAt 0 else n.lookup key) key lm with
        | none =>
          rw [hrest] at hih
          simp only [Option.map_none'] at hih
          simp [findLeafCrab, descendPath, hpg, hrest, hih]
        | some rest =>
          obtain ⟨y, ys, rfl⟩ : ∃ y ys, rest = y :: ys := by
            cases rest with
            | nil => exact absurd hrest (descendPath_ne_nil t fuel _ key lm)
            | cons y ys => exact ⟨y, ys, rfl⟩
          rw [hrest] at hih
          simp only [Option.map_some'] at hih
          simp only [findLeafCrab, descendPath, hpg, hrest, hih,
            Option.map_some', List.getLast?_cons_cons]
          obtain ⟨z, hz⟩ : ∃ z, (y :: ys).getLast? = some z :=
            Option.isSome_iff_exists.mp (by simp)
          rw [hz]
          by_cases hc :
              (Node.internal n).size < (Node.internal n).maxSize - 2 <;>
            simp [crabHeld, insertSafeNode, hc]

/-- Helper: the remove descent computes the leaf at the end of the
descent path, and its page set is the crabbing fold of the
`size > min_size` gate along that path. -/
theorem findLeafCrab_remove_eq (t : BTree) (key : Nat) (lm : Bool) :
    ∀ (fuel pid : Nat) (held : List Nat),
      findLeafCrab t fuel pid key lm IndexOpType.remove held =
        (descendPath t fuel pid key lm).map
          (fun path => (((path.getLast?).map Prod.fst).getD pid,
            crabHeld removeSafeNode path held)) := by
  intro fuel
  induction fuel with
  | zero => intro pid held; rfl
  | succ fuel ih =>
    intro pid held
    cases hpg : getPage t.store pid with
    | none => simp [findLeafCrab, descendPath, hpg]
    | some node =>
      cases node with
      | leaf l =>
        simp [findLeafCrab, descendPath, hpg, crabHeld, removeSafeNode]
      | internal n =>
        have hih := ih (if lm then n.valueAt 0 else n.lookup key)
          ((if getMinSize (Node.internal n).maxSize < (Node.internal n).size
            then [] else held) ++ [pid])
        cases hrest : descendPath t fuel
            (if lm then n.valueAt 0 else n.lookup key) key lm with
        | none =>
          rw [hrest] at hih
          simp only [Option.map_none'] at hih
          simp [findLeafCrab, descendPath, hpg, hrest, hih]
        | some rest =>
          obtain ⟨y, ys, rfl⟩ : ∃ y ys, rest = y :: ys := by
            cases rest with
            | nil => exact absurd hrest (descendPath_ne_nil t fuel _ key lm)
            | cons y ys => exact ⟨y, ys, rfl⟩
          rw [hrest] at hih
          simp only [Option.map_some'] at hih
          simp only [findLeafCrab, descendPath, hpg, hrest, hih,
            Option.map_some', List.getLast?_cons_cons]
          obtain ⟨z, hz⟩ : ∃ z, (y :: ys).getLast? = some z :=
            Option.isSome_iff_exists.mp (by simp)
          rw [hz]
          by_cases hc :
              getMinSize (Node.internal n).maxSize < (Node.internal n).size <;>
            simp [crabHeld, removeSafeNode, hc]

/-- Helper: the crabbing fold along a path keeps exactly the suffix
that starts at the last safe node (the whole path when none is
safe). -/
theorem crabHeld_eq_drop (safe : Node → Bool) (path : List (Nat × Node)) :
    crabHeld safe path [] =
      (path.drop (lastSafeStart safe path)).map Prod.fst := by
  induction path using List.reverseRecOn with
  | nil => rfl
  | append_singleton path p ih =>
    by_cases hp : safe p.snd = true
    · simp only [crabHeld, List.foldl_append, List.foldl_cons, List.foldl_nil,
        hp, if_true, List.nil_append]
      simp only [lastSafeStart, List.reverse_append, List.reverse_cons,
        List.reverse_nil, List.nil_append, List.cons_append,
        List.findIdx?_cons, hp, if_true]
      rw [List.drop_left' (by simp)]
      simp
    · have hfold : crabHeld safe (path ++ [p]) [] =
          crabHeld safe path [] ++ [p.fst] := by
        simp [crabHeld, List.foldl_append, hp]
      rw [hfold, ih]
      have hrev : (path ++ [p]).reverse = p :: path.reverse := by
        simp
      cases hidx : path.reverse.findIdx? (fun q => safe q.snd) with
      | none =>
        have h1 : lastSafeStart safe path = 0 := by
          simp [lastSafeStart, hidx]
        have h2 : lastSafeStart safe (path ++ [p]) = 0 := by
          simp [lastSafeStart, hrev, List.findIdx?_cons, hp, hidx,
            List.findIdx?_succ]
        simp [h1, h2]
      | some j =>
        have hj : j < path.reverse.length :=
          (List.findIdx?_eq_some_iff_findIdx_eq.mp hidx).1
        have h1 : lastSafeStart safe path = path.length - 1 - j := by
          simp [lastSafeStart, hidx]
        have h2 : lastSafeStart safe (path ++ [p]) = path.length - 1 - j := by
          simp only [lastSafeStart, hrev, List.findIdx?_cons, hp, if_false,
            Bool.false_eq_true, List.findIdx?_succ, hidx, Option.map_some',
            List.length_append, List.length_cons, List.length_nil]
          omega
        rw [h1, h2,
          List.drop_append_of_le_length (by simp at hj; omega)]
        simp

/-- C3 counterexample: on a two-level tree whose leaf has
`size = 2 = max_size − 2`, the leaf satisfies the claim's insert-safe
test `size < max_size − 1` (2 < 3), so by the claim the ancestors
should be released on reaching it — but the insert descent still holds
the root (page 1) together with the leaf: the code's gate is
`size < max_size − 2` (2 < 2 fails). -/
theorem insertSafe_gate_is_max_minus_2 :
    (getPage crabDemoTree.store 2).map Node.size = some 2 ∧
    (getPage crabDemoTree.store 2).map Node.maxSize = some 4 ∧
    (2 : Nat) < 4 - 1 ∧
    findLeafCrab crabDemoTree 4 1 1 false IndexOpType.insert [] =
      some (2, [1, 2]) ∧
    ([1, 2] : List Nat) ≠ [2] := by
  refine ⟨rfl, rfl, by decide, rfl, by decide⟩

/-- C3 (amended): during the write-path descent the held ancestors are
released exactly at safe nodes — after the descent the page set is
precisely the suffix of the root-to-leaf path starting at the last safe
node (the whole path when none is safe) — where a node is insert-safe
exactly when `size < max_size − 2` (not `max_size − 1` as claimed) and
remove-safe exactly when `size > min_size`. -/
theorem crabbing_releases_at_safe_nodes (t : BTree) (fuel pid key : Nat)
    (lm : Bool) (path : List (Nat × Node))
    (hpath : descendPath t fuel pid key lm = some path) :
    findLeafCrab t fuel pid key lm IndexOpType.insert [] =
      some (((path.getLast?).map Prod.fst).getD pid,
        (path.drop (lastSafeStart insertSafeNode path)).map Prod.fst) ∧
    findLeafCrab t fuel pid key lm IndexOpType.remove [] =
      some (((path.getLast?).map Prod.fst).getD pid,
        (path.drop (lastSafeStart removeSafeNode path)).map Prod.fst) := by
  constructor
  · rw [findLeafCrab_insert_eq t key lm fuel pid [], hpath]
    simp [crabHeld_eq_drop]
  · rw [findLeafCrab_remove_eq t key lm fuel pid [], hpath]
    simp [crabHeld_eq_drop]

/-- Witness for C3 (amended) on the concrete two-level tree: with both
nodes unsafe for REMOVE (sizes 2 = min_size), the whole path stays
held. -/
theorem crabbing_releases_witness :
    findLeafCrab crabDemoTree 4 1 1 false IndexOpType.remove [] =
      some (((crabDemoPath.getLast?).map Prod.fst).getD 1,
        (crabDemoPath.drop (lastSafeStart removeSafeNode crabDemoPath)).map
          Prod.fst) :=
  (crabbing_releases_at_safe_nodes crabDemoTree 4 1 1 false crabDemoPath
    rfl).2

/-- Witness for C10 on a concrete queue. -/
theorem unlock_spec_witness :
    (∃ req ∈ [(⟨5, LockMode.SHARED, true⟩ : LockRequest)],
      req.txn_id =
        (⟨5, IsolationLevel.REPEATABLE_READ, TransactionState.GROWING,
          [2], []⟩ : Txn).id) ∧
    (∃ l₁ req l₂,
      [(⟨5, LockMode.SHARED, true⟩ : LockRequest)] = l₁ ++ req :: l₂ ∧
      req.txn_id = 5 ∧
      (∀ r ∈ l₁, r.txn_id ≠ 5) ∧
      unlock
        ⟨5, IsolationLevel.REPEATABLE_READ, TransactionState.GROWING, [2], []⟩
        2 [⟨5, LockMode.SHARED, true⟩] =
        some (true,
          ⟨5, IsolationLevel.REPEATABLE_READ, TransactionState.SHRINKING,
            [], []⟩,
          l₁ ++ l₂)) := by
  refine ⟨⟨⟨5, LockMode.SHARED, true⟩, by simp, rfl⟩, ?_⟩
  obtain ⟨l₁, req, l₂, h₁, h₂, h₃, h₄⟩ :=
    (unlock_spec
      ⟨5, IsolationLevel.REPEATABLE_READ, TransactionState.GROWING, [2], []⟩
      2 [⟨5, LockMode.SHARED, true⟩]).1
      ⟨⟨5, LockMode.SHARED, true⟩, by simp, rfl⟩
  exact ⟨l₁, req, l₂, h₁, h₂, h₃, by simpa using h₄⟩

end Bustub
